import Mathlib

/-!
Verification of the core file-organization logic of the Technolize repository
(`organize_gui.py`, and its second variant `organize_gui_riot.py`).

The filesystem is modelled as a finite tree of named entries.  A directory's
children are kept in a list whose order plays the role of the (unspecified)
order in which the underlying directory listing yields entries.  File contents
are modelled by a natural number tag so that "never deletes a file" is a
non-trivial statement.

All Python functions of the core (`resolve_destination`, `ensure_unique_path`,
`ensure_unique_dir`, `organize_folder`, `relocate_legacy_folders`) are
translated below.  The unbounded `while True` loops of the two collision
resolvers are rendered with an explicit fuel of (number of sibling entries)+1;
the theorems `ensure_unique_path_not_exists` / `ensure_unique_dir_not_exists`
prove that this fuel always suffices, so the fueled function agrees with the
Python loop.  `shutil.move` onto an already-existing target is
platform-dependent in Python; the model reports it as the distinguished error
`Err.overwrite`, and we prove the organizer never produces that error.
-/

namespace Organizer

/-- A filesystem entry: a file (with a content tag) or a directory with an
ordered list of named children. -/
inductive Entry where
  | file (data : Nat) : Entry
  | dir (children : List (String × Entry)) : Entry

/-- Look up the (first) child with the given name. -/
def lookupChild : List (String × Entry) → String → Option Entry
  | [], _ => none
  | (m, e) :: rest, n => if m = n then some e else lookupChild rest n

/-- Remove the first child with the given name. -/
def eraseChild : List (String × Entry) → String → List (String × Entry)
  | [], _ => []
  | (m, e) :: rest, n => if m = n then rest else (m, e) :: eraseChild rest n

/-- Replace the first child with the given name by a new entry. -/
def replaceChild : List (String × Entry) → String → Entry → List (String × Entry)
  | [], _, _ => []
  | (m, e) :: rest, n, x => if m = n then (n, x) :: rest else (m, e) :: replaceChild rest n x

/-- Resolve a relative path inside an entry. -/
def getPath : Entry → List String → Option Entry
  | e, [] => some e
  | .file _, _ :: _ => none
  | .dir cs, n :: rest =>
    match lookupChild cs n with
    | none => none
    | some c => getPath c rest

/-- `Path.exists()` of the Python code. -/
def existsPath (e : Entry) (p : List String) : Bool :=
  (getPath e p).isSome

/-- The children of the directory at a path (empty list if absent or a file). -/
def childrenAt (e : Entry) (p : List String) : List (String × Entry) :=
  match getPath e p with
  | some (.dir cs) => cs
  | _ => []

/-- Remove the entry at a (nonempty) path, returning the new tree and the
removed entry.  `none` when the path does not resolve. -/
def detach : Entry → List String → Option (Entry × Entry)
  | _, [] => none
  | .file _, _ :: _ => none
  | .dir cs, [n] =>
    match lookupChild cs n with
    | none => none
    | some c => some (.dir (eraseChild cs n), c)
  | .dir cs, n :: m :: rest =>
    match lookupChild cs n with
    | none => none
    | some c => (detach c (m :: rest)).map (fun pr => (.dir (replaceChild cs n pr.1), pr.2))

/-- Insert entry `x` under the name `name` into the directory at `dirPath`.
Fails if the directory path does not resolve to a directory or the name is
already taken. -/
def attach : Entry → List String → String → Entry → Option Entry
  | .file _, _, _, _ => none
  | .dir cs, [], name, x =>
    match lookupChild cs name with
    | some _ => none
    | none => some (.dir (cs ++ [(name, x)]))
  | .dir cs, n :: rest, name, x =>
    match lookupChild cs n with
    | some c => (attach c rest name x).map (fun c' => .dir (replaceChild cs n c'))
    | none => none

/-- `Path.mkdir(parents=True, exist_ok=True)`: create every missing directory
along the path; fails (like Python's `FileExistsError`/`NotADirectoryError`)
as soon as a component exists as a file. -/
def mkdirParents : Entry → List String → Option Entry
  | .file _, _ => none
  | .dir cs, [] => some (.dir cs)
  | .dir cs, n :: rest =>
    match lookupChild cs n with
    | some c =>
      (mkdirParents c rest).map (fun c' => .dir (replaceChild cs n c'))
    | none =>
      (mkdirParents (.dir []) rest).map (fun c' => .dir (cs ++ [(n, c')]))

/-- `src_dir.rmdir()` wrapped in `try ... except OSError: pass`: the directory
is removed only when it exists and is empty; in every other case the tree is
returned unchanged (the failure is swallowed). -/
def rmdirIfEmpty (e : Entry) (p : List String) : Entry :=
  match getPath e p with
  | some (.dir []) =>
    match detach e p with
    | some pr => pr.1
    | none => e
  | _ => e

/-! ### The name-level helpers of `organize_gui.py` -/

/-- The index (from the end) of the last `'.'` of a name, via the reversed
character list, mirroring `str.rfind('.')` as used by `PurePath.stem/suffix`. -/
def pySplitExt (name : String) : String × String :=
  let cs := name.data
  match cs.reverse.findIdx? (fun c => c = '.') with
  | some j =>
    if 0 < j ∧ j < cs.length - 1 then
      (⟨cs.take (cs.length - 1 - j)⟩, ⟨cs.drop (cs.length - 1 - j)⟩)
    else (name, "")
  | none => (name, "")

/-- `PurePath.stem` of the final path component. -/
def pyStem (name : String) : String := (pySplitExt name).1

/-- `PurePath.suffix` of the final path component. -/
def pySuffix (name : String) : String := (pySplitExt name).2

/-- `str.lower()` (identical to `String.toLower`, stated on the character
list so that it evaluates in the kernel). -/
def strLower (s : String) : String := ⟨s.data.map Char.toLower⟩

/-- Splitting helper for `Path(...)`: cut a character list at every `'/'`. -/
def splitPathAux : List Char → List Char → List String
  | [], acc => [⟨acc.reverse⟩]
  | c :: rest, acc =>
    if c = '/' then ⟨acc.reverse⟩ :: splitPathAux rest []
    else splitPathAux rest (c :: acc)

/-- `CATEGORY_MAP` of `organize_gui.py` (a Python dict iterated in insertion
order): destination folder, with its list of extensions. -/
def CATEGORY_MAP : List (String × List String) :=
  [("Documents/Excel", [".xls", ".xlsx", ".xlsm", ".xlsb", ".xltx", ".csv"]),
   ("Documents/Word", [".doc", ".docx", ".odt", ".rtf"]),
   ("Documents/PDF", [".pdf"]),
   ("Documents/Text", [".txt"]),
   ("Media/Images", [".jpg", ".jpeg", ".png", ".gif", ".bmp", ".tiff", ".webp", ".heic"]),
   ("Media/Videos", [".mp4", ".mov", ".avi", ".mkv", ".wmv", ".flv", ".webm", ".m4v"])]

/-- `LEGACY_FOLDER_REMAP` of `organize_gui.py`, in insertion order. -/
def LEGACY_FOLDER_REMAP : List (String × String) :=
  [("Excel", "Documents/Excel"),
   ("Word", "Documents/Word"),
   ("PDF", "Documents/PDF"),
   ("Text", "Documents/Text")]

/-- `OTHER_FOLDER` of `organize_gui.py`. -/
def OTHER_FOLDER : String := "Other"

/-- `Path(dest)` component splitting of a destination string such as
`"Documents/Excel"` (the behavior of `PurePath` parts on these strings). -/
def splitPath (s : String) : List String := splitPathAux s.data []

/-- `resolve_destination` of `organize_gui.py`: the first category whose
extension list contains the lower-cased extension of the file name. -/
def resolve_destination (name : String) : Option String :=
  let ext := strLower (pySuffix name)
  CATEGORY_MAP.findSome? (fun r => if ext ∈ r.2 then some r.1 else none)

/-- The candidate name `f"{stem} ({counter}){suffix}"` of `ensure_unique_path`. -/
def candFile (stem suffix counterStr : String) : String :=
  stem ++ " (" ++ counterStr ++ ")" ++ suffix

/-- The candidate name `f"{target.name} ({counter})"` of `ensure_unique_dir`. -/
def candDir (name counterStr : String) : String :=
  name ++ " (" ++ counterStr ++ ")"

/-- The `while True` loop of `ensure_unique_path`, with explicit fuel. -/
def findFreeFile (root : Entry) (dirPath : List String) (stem suffix : String) :
    Nat → Nat → String
  | 0, k => candFile stem suffix (Nat.repr k)
  | fuel + 1, k =>
    let c := candFile stem suffix (Nat.repr k)
    if existsPath root (dirPath ++ [c]) then findFreeFile root dirPath stem suffix fuel (k + 1)
    else c

/-- The `while True` loop of `ensure_unique_dir`, with explicit fuel. -/
def findFreeDir (root : Entry) (dirPath : List String) (name : String) :
    Nat → Nat → String
  | 0, k => candDir name (Nat.repr k)
  | fuel + 1, k =>
    let c := candDir name (Nat.repr k)
    if existsPath root (dirPath ++ [c]) then findFreeDir root dirPath name fuel (k + 1)
    else c

/-- `ensure_unique_path` of `organize_gui.py`.  The Python function takes a
full target path and returns a full path; here the target is given as its
parent directory path plus final name, and the (possibly renamed) final name
is returned. -/
def ensure_unique_path (root : Entry) (dirPath : List String) (name : String) : String :=
  if existsPath root (dirPath ++ [name]) then
    findFreeFile root dirPath (pyStem name) (pySuffix name)
      ((childrenAt root dirPath).length + 1) 1
  else name

/-- `ensure_unique_dir` of `organize_gui.py`, same conventions as
`ensure_unique_path`. -/
def ensure_unique_dir (root : Entry) (dirPath : List String) (name : String) : String :=
  if existsPath root (dirPath ++ [name]) then
    findFreeDir root dirPath name ((childrenAt root dirPath).length + 1) 1
  else name

/-! ### The organization engine -/

/-- A MoveRecord: source and destination paths, relative to the base folder. -/
abbrev MoveRec := List String × List String

/-- The ways a run can fail (Python exceptions). `overwrite` marks a
`shutil.move` whose target already exists (platform-dependent in Python;
proved unreachable), `srcMissing` a move whose source is gone
(`FileNotFoundError`), `moveFail` a move whose target directory is missing. -/
inductive Err where
  | notADir : Err
  | mkdirBlocked (p : List String) : Err
  | overwrite (p : List String) : Err
  | srcMissing (p : List String) : Err
  | moveFail (p : List String) : Err
deriving DecidableEq, Repr

/-- `shutil.move(str(src), target)` plus the bookkeeping of one move: detach
the source, insert it at the destination, and produce the MoveRecord. -/
def moveOp (root : Entry) (src : List String) (dstDir : List String) (dstName : String) :
    Except Err (Entry × MoveRec) :=
  if existsPath root (dstDir ++ [dstName]) then .error (.overwrite (dstDir ++ [dstName]))
  else
    match detach root src with
    | none => .error (.srcMissing src)
    | some (root', x) =>
      match attach root' dstDir dstName x with
      | none => .error (.moveFail (dstDir ++ [dstName]))
      | some root'' => .ok (root'', (src, dstDir ++ [dstName]))

/-- The destination folder (relative path) chosen for a top-level file:
`dest_subpath if dest_subpath is not None else Path(OTHER_FOLDER)`. -/
def destRootOf (name : String) : List String :=
  match resolve_destination name with
  | some d => splitPath d
  | none => [OTHER_FOLDER]

/-- The body of the first-pass loop of `organize_folder` for one directory
entry name. -/
def step1 (cur : Entry) (name : String) : Except Err (Entry × List MoveRec) :=
  match getPath cur [name] with
  | some (.dir _) => .ok (cur, [])
  | _ =>
    let dr := destRootOf name
    match mkdirParents cur dr with
    | none => .error (.mkdirBlocked dr)
    | some cur1 =>
      let t := ensure_unique_path cur1 dr name
      (moveOp cur1 [name] dr t).map (fun pr => (pr.1, [pr.2]))

/-- The first-pass loop of `organize_folder` over the snapshot of top-level
names, threading the accumulated MoveLog. -/
def passFiles : Entry → List String → List MoveRec → Except Err (Entry × List MoveRec)
  | cur, [], acc => .ok (cur, acc)
  | cur, n :: rest, acc =>
    match step1 cur n with
    | .error e => .error e
    | .ok (c2, rs) => passFiles c2 rest (acc ++ rs)

/-- The body of the inner loop of `relocate_legacy_folders` for one item of a
legacy folder. -/
def stepLegacyItem (cur : Entry) (k : String) (destDir : List String) (iname : String) :
    Except Err (Entry × MoveRec) :=
  match getPath cur [k, iname] with
  | some (.dir _) =>
    let t := ensure_unique_dir cur destDir iname
    moveOp cur [k, iname] destDir t
  | _ =>
    let t := ensure_unique_path cur destDir iname
    moveOp cur [k, iname] destDir t

/-- The inner loop of `relocate_legacy_folders` over the snapshot of the
legacy folder's children. -/
def legacyItems (k : String) (destDir : List String) :
    Entry → List String → List MoveRec → Except Err (Entry × List MoveRec)
  | cur, [], acc => .ok (cur, acc)
  | cur, i :: rest, acc =>
    match stepLegacyItem cur k destDir i with
    | .error e => .error e
    | .ok (c2, r) => legacyItems k destDir c2 rest (acc ++ [r])

/-- Processing of one `(legacy_name, dest_rel)` pair of `LEGACY_FOLDER_REMAP`. -/
def stepLegacy (cur : Entry) (acc : List MoveRec) (kv : String × String) :
    Except Err (Entry × List MoveRec) :=
  match getPath cur [kv.1] with
  | some (.dir _) =>
    let dd := splitPath kv.2
    match mkdirParents cur dd with
    | none => .error (.mkdirBlocked dd)
    | some cur1 =>
      match legacyItems kv.1 dd cur1 ((childrenAt cur1 [kv.1]).map Prod.fst) acc with
      | .error e => .error e
      | .ok (c2, acc2) => .ok (rmdirIfEmpty c2 [kv.1], acc2)
  | _ => .ok (cur, acc)

/-- The fold of `relocate_legacy_folders` over the remap table. -/
def relocGo : Entry → List MoveRec → List (String × String) → Except Err (Entry × List MoveRec)
  | cur, acc, [] => .ok (cur, acc)
  | cur, acc, kv :: rest =>
    match stepLegacy cur acc kv with
    | .error e => .error e
    | .ok (c2, a2) => relocGo c2 a2 rest

/-- `relocate_legacy_folders` of `organize_gui.py` (the moves list is threaded
explicitly instead of being mutated in place). -/
def relocate_legacy_folders (cur : Entry) (acc : List MoveRec) :
    Except Err (Entry × List MoveRec) :=
  relocGo cur acc LEGACY_FOLDER_REMAP

/-- `organize_folder` of `organize_gui.py`: the first pass over the snapshot
of top-level entries, then the legacy-folder migration; returns the final tree
together with the MoveLog. -/
def organize_folder (root : Entry) : Except Err (Entry × List MoveRec) :=
  match root with
  | .file _ => .error .notADir
  | .dir cs =>
    match passFiles root (cs.map Prod.fst) [] with
    | .error e => .error e
    | .ok (c1, mv) => relocate_legacy_folders c1 mv

/-! ### Auxiliary definitions used by the verification -/

/-- Decimal rendering of a natural number (most significant digit first);
proof-side characterization of `Nat.repr`. -/
def decChars (n : Nat) : List Char :=
  if _h : n < 10 then [Nat.digitChar n]
  else decChars (n / 10) ++ [Nat.digitChar (n % 10)]
decreasing_by exact Nat.div_lt_self (by omega) (by omega)

/-- Two relative paths are disjoint when neither is a prefix of the other,
i.e. they diverge at some component. -/
def pathDisj : List String → List String → Bool
  | [], _ => false
  | _ :: _, [] => false
  | a :: p, b :: q => if a = b then pathDisj p q else true

/-- No name occurs twice. -/
def namesUnique : List String → Bool
  | [] => true
  | n :: rest => (!rest.contains n) && namesUnique rest

mutual

/-- Well-formed tree: sibling names are distinct at every level (true of any
real filesystem directory). -/
def wfEntry : Entry → Bool
  | .file _ => true
  | .dir cs => namesUnique (cs.map Prod.fst) && wfChildren cs

/-- Well-formedness of a children list. -/
def wfChildren : List (String × Entry) → Bool
  | [] => true
  | c :: rest => wfEntry c.2 && wfChildren rest

end

mutual

/-- The multiset of file contents stored in a tree. -/
def filesOf : Entry → Multiset Nat
  | .file d => {d}
  | .dir cs => filesOfChildren cs

/-- The multiset of file contents stored under a children list. -/
def filesOfChildren : List (String × Entry) → Multiset Nat
  | [] => 0
  | c :: rest => filesOf c.2 + filesOfChildren rest

end

/-- The names of the top-level children of a tree. -/
def topNames : Entry → List String
  | .file _ => []
  | .dir cs => cs.map Prod.fst

end Organizer

namespace Riot

/-!
The second source variant, `organize_gui_riot.py`.  Its core functions
(`resolve_destination`, `ensure_unique_path`, `ensure_unique_dir`,
`organize_folder`, `relocate_legacy_folders`) are translated here separately
from its own text; the filesystem primitives (`detach`, `attach`,
`mkdirParents`, `moveOp`, `pySplitExt`, ...) model the shared Python runtime
(`pathlib`, `shutil`) and are common to both variants.
-/

open Organizer (Entry existsPath childrenAt pyStem pySuffix MoveRec Err moveOp
  mkdirParents getPath rmdirIfEmpty)

/-- `CATEGORY_MAP` of `organize_gui_riot.py`. -/
def CATEGORY_MAP : List (String × List String) :=
  [("Documents/Excel", [".xls", ".xlsx", ".xlsm", ".xlsb", ".xltx", ".csv"]),
   ("Documents/Word", [".doc", ".docx", ".odt", ".rtf"]),
   ("Documents/PDF", [".pdf"]),
   ("Documents/Text", [".txt"]),
   ("Media/Images", [".jpg", ".jpeg", ".png", ".gif", ".bmp", ".tiff", ".webp", ".heic"]),
   ("Media/Videos", [".mp4", ".mov", ".avi", ".mkv", ".wmv", ".flv", ".webm", ".m4v"])]

/-- `LEGACY_FOLDER_REMAP` of `organize_gui_riot.py`. -/
def LEGACY_FOLDER_REMAP : List (String × String) :=
  [("Excel", "Documents/Excel"),
   ("Word", "Documents/Word"),
   ("PDF", "Documents/PDF"),
   ("Text", "Documents/Text")]

/-- `OTHER_FOLDER` of `organize_gui_riot.py`. -/
def OTHER_FOLDER : String := "Other"

/-- `Path(dest)` component splitting, as in the variant. -/
def splitPath (s : String) : List String := Organizer.splitPathAux s.data []

/-- `resolve_destination` of `organize_gui_riot.py`. -/
def resolve_destination (name : String) : Option String :=
  let ext := Organizer.strLower (pySuffix name)
  CATEGORY_MAP.findSome? (fun r => if ext ∈ r.2 then some r.1 else none)

/-- Candidate name of the variant's `ensure_unique_path`. -/
def candFile (stem suffix counterStr : String) : String :=
  stem ++ " (" ++ counterStr ++ ")" ++ suffix

/-- Candidate name of the variant's `ensure_unique_dir`. -/
def candDir (name counterStr : String) : String :=
  name ++ " (" ++ counterStr ++ ")"

/-- The `while True` loop of the variant's `ensure_unique_path`. -/
def findFreeFile (root : Entry) (dirPath : List String) (stem suffix : String) :
    Nat → Nat → String
  | 0, k => candFile stem suffix (Nat.repr k)
  | fuel + 1, k =>
    let c := candFile stem suffix (Nat.repr k)
    if existsPath root (dirPath ++ [c]) then findFreeFile root dirPath stem suffix fuel (k + 1)
    else c

/-- The `while True` loop of the variant's `ensure_unique_dir`. -/
def findFreeDir (root : Entry) (dirPath : List String) (name : String) :
    Nat → Nat → String
  | 0, k => candDir name (Nat.repr k)
  | fuel + 1, k =>
    let c := candDir name (Nat.repr k)
    if existsPath root (dirPath ++ [c]) then findFreeDir root dirPath name fuel (k + 1)
    else c

/-- `ensure_unique_path` of `organize_gui_riot.py`. -/
def ensure_unique_path (root : Entry) (dirPath : List String) (name : String) : String :=
  if existsPath root (dirPath ++ [name]) then
    findFreeFile root dirPath (pyStem name) (pySuffix name)
      ((childrenAt root dirPath).length + 1) 1
  else name

/-- `ensure_unique_dir` of `organize_gui_riot.py`. -/
def ensure_unique_dir (root : Entry) (dirPath : List String) (name : String) : String :=
  if existsPath root (dirPath ++ [name]) then
    findFreeDir root dirPath name ((childrenAt root dirPath).length + 1) 1
  else name

/-- Destination-folder choice of the variant's `organize_folder` body. -/
def destRootOf (name : String) : List String :=
  match resolve_destination name with
  | some d => splitPath d
  | none => [OTHER_FOLDER]

/-- One first-pass entry of the variant's `organize_folder`. -/
def step1 (cur : Entry) (name : String) : Except Err (Entry × List MoveRec) :=
  match getPath cur [name] with
  | some (.dir _) => .ok (cur, [])
  | _ =>
    let dr := destRootOf name
    match mkdirParents cur dr with
    | none => .error (.mkdirBlocked dr)
    | some cur1 =>
      let t := ensure_unique_path cur1 dr name
      (moveOp cur1 [name] dr t).map (fun pr => (pr.1, [pr.2]))

/-- First-pass loop of the variant's `organize_folder`. -/
def passFiles : Entry → List String → List MoveRec → Except Err (Entry × List MoveRec)
  | cur, [], acc => .ok (cur, acc)
  | cur, n :: rest, acc =>
    match step1 cur n with
    | .error e => .error e
    | .ok (c2, rs) => passFiles c2 rest (acc ++ rs)

/-- One legacy-folder item of the variant's `relocate_legacy_folders`. -/
def stepLegacyItem (cur : Entry) (k : String) (destDir : List String) (iname : String) :
    Except Err (Entry × MoveRec) :=
  match getPath cur [k, iname] with
  | some (.dir _) =>
    let t := ensure_unique_dir cur destDir iname
    moveOp cur [k, iname] destDir t
  | _ =>
    let t := ensure_unique_path cur destDir iname
    moveOp cur [k, iname] destDir t

/-- Inner loop of the variant's `relocate_legacy_folders`. -/
def legacyItems (k : String) (destDir : List String) :
    Entry → List String → List MoveRec → Except Err (Entry × List MoveRec)
  | cur, [], acc => .ok (cur, acc)
  | cur, i :: rest, acc =>
    match stepLegacyItem cur k destDir i with
    | .error e => .error e
    | .ok (c2, r) => legacyItems k destDir c2 rest (acc ++ [r])

/-- One remap pair of the variant's `relocate_legacy_folders`. -/
def stepLegacy (cur : Entry) (acc : List MoveRec) (kv : String × String) :
    Except Err (Entry × List MoveRec) :=
  match getPath cur [kv.1] with
  | some (.dir _) =>
    let dd := splitPath kv.2
    match mkdirParents cur dd with
    | none => .error (.mkdirBlocked dd)
    | some cur1 =>
      match legacyItems kv.1 dd cur1 ((childrenAt cur1 [kv.1]).map Prod.fst) acc with
      | .error e => .error e
      | .ok (c2, acc2) => .ok (rmdirIfEmpty c2 [kv.1], acc2)
  | _ => .ok (cur, acc)

/-- Fold of the variant's `relocate_legacy_folders` over its remap table. -/
def relocGo : Entry → List MoveRec → List (String × String) → Except Err (Entry × List MoveRec)
  | cur, acc, [] => .ok (cur, acc)
  | cur, acc, kv :: rest =>
    match stepLegacy cur acc kv with
    | .error e => .error e
    | .ok (c2, a2) => relocGo c2 a2 rest

/-- `relocate_legacy_folders` of `organize_gui_riot.py`. -/
def relocate_legacy_folders (cur : Entry) (acc : List MoveRec) :
    Except Err (Entry × List MoveRec) :=
  relocGo cur acc LEGACY_FOLDER_REMAP

/-- `organize_folder` of `organize_gui_riot.py`. -/
def organize_folder (root : Entry) : Except Err (Entry × List MoveRec) :=
  match root with
  | .file _ => .error .notADir
  | .dir cs =>
    match passFiles root (cs.map Prod.fst) [] with
    | .error e => .error e
    | .ok (c1, mv) => relocate_legacy_folders c1 mv

end Riot

namespace Organizer

/-! ### Decimal rendering: `Nat.repr` is injective -/

theorem decChars_lt (n : Nat) (h : n < 10) : decChars n = [Nat.digitChar n] := by
  rw [decChars]
  simp [h]

theorem decChars_ge (n : Nat) (h : ¬ n < 10) :
    decChars n = decChars (n / 10) ++ [Nat.digitChar (n % 10)] := by
  rw [decChars]
  simp [h]

theorem decChars_ne_nil (n : Nat) : decChars n ≠ [] := by
  by_cases h : n < 10
  · rw [decChars_lt n h]
    simp
  · rw [decChars_ge n h]
    simp

theorem toDigitsCore_eq_decChars :
    ∀ (fuel n : Nat) (l : List Char), n < fuel →
      Nat.toDigitsCore 10 fuel n l = decChars n ++ l := by
  intro fuel
  induction fuel with
  | zero => intro n l h; omega
  | succ f ih =>
    intro n l h
    by_cases hd : n / 10 = 0
    · have hn : n < 10 := by omega
      simp only [Nat.toDigitsCore, hd, if_true, decChars_lt n hn]
      have : n % 10 = n := Nat.mod_eq_of_lt hn
      rw [this]
      rfl
    · have hn : ¬ n < 10 := by
        intro hc
        exact hd (Nat.div_eq_of_lt hc)
      have hlt : n / 10 < f := by
        have h1 : n / 10 < n := Nat.div_lt_self (by omega) (by omega)
        omega
      simp only [Nat.toDigitsCore, hd, if_false]
      rw [ih (n / 10) (Nat.digitChar (n % 10) :: l) hlt, decChars_ge n hn,
        List.append_assoc]
      rfl

theorem repr_data_eq_decChars (n : Nat) : (Nat.repr n).data = decChars n := by
  show (Nat.toDigits 10 n).asString.data = decChars n
  rw [Nat.toDigits, toDigitsCore_eq_decChars (n + 1) n [] (by omega)]
  simp [List.asString]

theorem digitChar_inj_lt : ∀ a : Nat, a < 10 → ∀ b : Nat, b < 10 →
    Nat.digitChar a = Nat.digitChar b → a = b := by decide

theorem decChars_inj : ∀ m n : Nat, decChars m = decChars n → m = n := by
  intro m
  induction m using Nat.strong_induction_on with
  | _ m ih =>
    intro n h
    by_cases hm : m < 10 <;> by_cases hn : n < 10
    · rw [decChars_lt m hm, decChars_lt n hn] at h
      injection h with h1 _
      exact digitChar_inj_lt m hm n hn h1
    · rw [decChars_lt m hm, decChars_ge n hn] at h
      have hlen := congrArg List.length h
      rw [List.length_append] at hlen
      simp only [List.length_cons, List.length_nil] at hlen
      have h0 : (decChars (n / 10)).length = 0 := by omega
      exact absurd (List.length_eq_zero.mp h0) (decChars_ne_nil (n / 10))
    · rw [decChars_ge m hm, decChars_lt n hn] at h
      have hlen := congrArg List.length h
      rw [List.length_append] at hlen
      simp only [List.length_cons, List.length_nil] at hlen
      have h0 : (decChars (m / 10)).length = 0 := by omega
      exact absurd (List.length_eq_zero.mp h0) (decChars_ne_nil (m / 10))
    · rw [decChars_ge m hm, decChars_ge n hn] at h
      have hlen : (decChars (m / 10)).length = (decChars (n / 10)).length := by
        have := congrArg List.length h
        simp at this
        exact this
      obtain ⟨h1, h2⟩ := List.append_inj h hlen
      have hdiv : m / 10 = n / 10 :=
        ih (m / 10) (Nat.div_lt_self (by omega) (by omega)) (n / 10) h1
      have hmod : m % 10 = n % 10 := by
        have hc : Nat.digitChar (m % 10) = Nat.digitChar (n % 10) := by
          simpa using h2
        exact digitChar_inj_lt _ (Nat.mod_lt _ (by omega)) _ (Nat.mod_lt _ (by omega)) hc
      omega

theorem repr_inj {m n : Nat} (h : Nat.repr m = Nat.repr n) : m = n :=
  decChars_inj m n (by rw [← repr_data_eq_decChars, ← repr_data_eq_decChars, h])

end Organizer

namespace Organizer

/-! ### Candidate names are injective in the counter -/

theorem candFile_inj (s u : String) {j k : Nat}
    (h : candFile s u (Nat.repr j) = candFile s u (Nat.repr k)) : j = k := by
  apply repr_inj
  apply String.ext
  have hd := congrArg String.data h
  simp only [candFile, String.data_append, List.append_assoc] at hd
  exact List.append_cancel_right (List.append_cancel_left (List.append_cancel_left hd))

theorem candDir_inj (nm : String) {j k : Nat}
    (h : candDir nm (Nat.repr j) = candDir nm (Nat.repr k)) : j = k := by
  apply repr_inj
  apply String.ext
  have hd := congrArg String.data h
  simp only [candDir, String.data_append, List.append_assoc] at hd
  exact List.append_cancel_right (List.append_cancel_left (List.append_cancel_left hd))

/-! ### Existence of a free candidate (pigeonhole) -/

theorem lookupChild_isSome_mem {cs : List (String × Entry)} {n : String}
    (h : (lookupChild cs n).isSome) : n ∈ cs.map Prod.fst := by
  induction cs with
  | nil => simp [lookupChild] at h
  | cons c rest ih =>
    by_cases hc : c.1 = n
    · simp [hc]
    · simp only [lookupChild] at h
      rw [if_neg hc] at h
      simp [ih h]

theorem lookupChild_isSome_of_mem {cs : List (String × Entry)} {n : String}
    (h : n ∈ cs.map Prod.fst) : (lookupChild cs n).isSome := by
  induction cs with
  | nil => simp at h
  | cons c rest ih =>
    by_cases hc : c.1 = n
    · simp [lookupChild, hc]
    · simp only [List.map_cons, List.mem_cons] at h
      rcases h with h | h
    
      · exact absurd h.symm hc
      · simp only [lookupChild]
        rw [if_neg hc]
        exact ih h

theorem getPath_append (e : Entry) (p q : List String) :
    getPath e (p ++ q) = (getPath e p).bind (fun x => getPath x q) := by
  induction p generalizing e with
  | nil => simp [getPath]
  | cons n rest ih =>
    cases e with
    | file d => simp [getPath]
    | dir cs =>
      simp only [List.cons_append, getPath]
      cases lookupChild cs n with
      | none => simp
      | some c => simp [ih c]

theorem existsPath_append_mem {root : Entry} {dd : List String} {c : String}
    (h : existsPath root (dd ++ [c]) = true) : c ∈ (childrenAt root dd).map Prod.fst := by
  unfold existsPath at h
  rw [getPath_append] at h
  cases hg : getPath root dd with
  | none => rw [hg] at h; simp at h
  | some x =>
    rw [hg] at h
    cases x with
    | file d => simp [getPath] at h
    | dir cs =>
      rw [Option.some_bind] at h
      have hl : (lookupChild cs c).isSome := by
        cases hl : lookupChild cs c with
        | none => simp [getPath, hl] at h
        | some y => simp
      have hm := lookupChild_isSome_mem hl
      simpa [childrenAt, hg] using hm

theorem nodup_subset_length {l1 l2 : List String} (hn : l1.Nodup) (hs : ∀ a ∈ l1, a ∈ l2) :
    l1.length ≤ l2.length := by
  calc l1.length = l1.toFinset.card := (List.toFinset_card_of_nodup hn).symm
    _ ≤ l2.toFinset.card := Finset.card_le_card (fun a ha => by
        rw [List.mem_toFinset] at ha ⊢
        exact hs a ha)
    _ ≤ l2.length := l2.toFinset_card_le

theorem exists_free_cand (root : Entry) (dd : List String) (cand : Nat → String)
    (hinj : ∀ j k, cand j = cand k → j = k) :
    ∃ i, i < (childrenAt root dd).length + 1 ∧
      existsPath root (dd ++ [cand (1 + i)]) = false := by
  by_contra hc
  push_neg at hc
  have hsub : ∀ a ∈ (List.range ((childrenAt root dd).length + 1)).map (fun i => cand (1 + i)),
      a ∈ (childrenAt root dd).map Prod.fst := by
    intro a ha
    simp only [List.mem_map, List.mem_range] at ha
    obtain ⟨i, hi, rfl⟩ := ha
    have ht := hc i hi
    simp only [ne_eq, Bool.not_eq_false] at ht
    exact existsPath_append_mem ht
  have hnd : ((List.range ((childrenAt root dd).length + 1)).map (fun i => cand (1 + i))).Nodup := by
    refine List.Nodup.map ?_ (List.nodup_range _)
    intro a b hab
    have := hinj (1 + a) (1 + b) hab
    omega
  have hle := nodup_subset_length hnd hsub
  simp only [List.length_map, List.length_range] at hle
  omega

/-! ### The fueled loops find the first free candidate -/

theorem findFreeFile_spec (root : Entry) (dd : List String) (s u : String) :
    ∀ (fuel k : Nat),
      (∃ i, i < fuel ∧ existsPath root (dd ++ [candFile s u (Nat.repr (k + i))]) = false) →
      ∃ i, i < fuel ∧
        findFreeFile root dd s u fuel k = candFile s u (Nat.repr (k + i)) ∧
        existsPath root (dd ++ [candFile s u (Nat.repr (k + i))]) = false ∧
        ∀ j, j < i → existsPath root (dd ++ [candFile s u (Nat.repr (k + j))]) = true := by
  intro fuel
  induction fuel with
  | zero =>
    rintro k ⟨i, hi, _⟩
    omega
  | succ f ih =>
    rintro k ⟨i, hi, hfree⟩
    by_cases hk : existsPath root (dd ++ [candFile s u (Nat.repr k)]) = true
    · have hi0 : 0 < i := by
        rcases Nat.eq_zero_or_pos i with h0 | h
        · subst h0
          rw [Nat.add_zero] at hfree
          rw [hk] at hfree
          exact absurd hfree (by simp)
        · exact h
      obtain ⟨i', hi', heq, hfree', hmin'⟩ := ih (k + 1)
        ⟨i - 1, by omega, by
          have hki : k + 1 + (i - 1) = k + i := by omega
          rw [hki]
          exact hfree⟩
      have hshift : k + 1 + i' = k + (i' + 1) := by omega
      rw [hshift] at heq hfree'
      refine ⟨i' + 1, by omega, ?_, hfree', ?_⟩
      · simp only [findFreeFile, hk, if_true]
        exact heq
      · intro j hj
        rcases Nat.eq_zero_or_pos j with h0 | hp
        · subst h0
          rw [Nat.add_zero]
          exact hk
        · have := hmin' (j - 1) (by omega)
          have hkj : k + 1 + (j - 1) = k + j := by omega
          rw [hkj] at this
          exact this
    · refine ⟨0, by omega, ?_, ?_, ?_⟩
      · simp [findFreeFile, hk]
      · rw [Nat.add_zero]
        simpa using hk
      · intro j hj
        omega

theorem findFreeDir_spec (root : Entry) (dd : List String) (nm : String) :
    ∀ (fuel k : Nat),
      (∃ i, i < fuel ∧ existsPath root (dd ++ [candDir nm (Nat.repr (k + i))]) = false) →
      ∃ i, i < fuel ∧
        findFreeDir root dd nm fuel k = candDir nm (Nat.repr (k + i)) ∧
        existsPath root (dd ++ [candDir nm (Nat.repr (k + i))]) = false ∧
        ∀ j, j < i → existsPath root (dd ++ [candDir nm (Nat.repr (k + j))]) = true := by
  intro fuel
  induction fuel with
  | zero =>
    rintro k ⟨i, hi, _⟩
    omega
  | succ f ih =>
    rintro k ⟨i, hi, hfree⟩
    by_cases hk : existsPath root (dd ++ [candDir nm (Nat.repr k)]) = true
    · have hi0 : 0 < i := by
        rcases Nat.eq_zero_or_pos i with h0 | h
        · subst h0
          rw [Nat.add_zero] at hfree
          rw [hk] at hfree
          exact absurd hfree (by simp)
        · exact h
      obtain ⟨i', hi', heq, hfree', hmin'⟩ := ih (k + 1)
        ⟨i - 1, by omega, by
          have hki : k + 1 + (i - 1) = k + i := by omega
          rw [hki]
          exact hfree⟩
      have hshift : k + 1 + i' = k + (i' + 1) := by omega
      rw [hshift] at heq hfree'
      refine ⟨i' + 1, by omega, ?_, hfree', ?_⟩
      · simp only [findFreeDir, hk, if_true]
        exact heq
      · intro j hj
        rcases Nat.eq_zero_or_pos j with h0 | hp
        · subst h0
          rw [Nat.add_zero]
          exact hk
        · have := hmin' (j - 1) (by omega)
          have hkj : k + 1 + (j - 1) = k + j := by omega
          rw [hkj] at this
          exact this
    · refine ⟨0, by omega, ?_, ?_, ?_⟩
      · simp [findFreeDir, hk]
      · rw [Nat.add_zero]
        simpa using hk
      · intro j hj
        omega

/-! ### Specification of the collision resolvers -/

theorem ensure_unique_path_spec (root : Entry) (dd : List String) (name : String) :
    (existsPath root (dd ++ [name]) = false → ensure_unique_path root dd name = name) ∧
    (existsPath root (dd ++ [name]) = true →
      ∃ k, 1 ≤ k ∧
        ensure_unique_path root dd name =
          candFile (pyStem name) (pySuffix name) (Nat.repr k) ∧
        existsPath root (dd ++ [candFile (pyStem name) (pySuffix name) (Nat.repr k)]) = false ∧
        ∀ j, 1 ≤ j → j < k →
          existsPath root (dd ++ [candFile (pyStem name) (pySuffix name) (Nat.repr j)]) = true) := by
  constructor
  · intro h
    unfold ensure_unique_path
    rw [h]
    rfl
  · intro h
    obtain ⟨i0, hi0, hfree0⟩ := exists_free_cand root dd
      (fun i => candFile (pyStem name) (pySuffix name) (Nat.repr i))
      (fun j k hjk => candFile_inj _ _ hjk)
    obtain ⟨i, hi, heq, hfree, hmin⟩ :=
      findFreeFile_spec root dd (pyStem name) (pySuffix name)
        ((childrenAt root dd).length + 1) 1 ⟨i0, hi0, hfree0⟩
    refine ⟨1 + i, by omega, ?_, hfree, ?_⟩
    · unfold ensure_unique_path
      rw [h]
      simpa using heq
    · intro j h1 hj
      have := hmin (j - 1) (by omega)
      have hj1 : 1 + (j - 1) = j := by omega
      rw [hj1] at this
      exact this

theorem ensure_unique_dir_spec (root : Entry) (dd : List String) (name : String) :
    (existsPath root (dd ++ [name]) = false → ensure_unique_dir root dd name = name) ∧
    (existsPath root (dd ++ [name]) = true →
      ∃ k, 1 ≤ k ∧
        ensure_unique_dir root dd name = candDir name (Nat.repr k) ∧
        existsPath root (dd ++ [candDir name (Nat.repr k)]) = false ∧
        ∀ j, 1 ≤ j → j < k →
          existsPath root (dd ++ [candDir name (Nat.repr j)]) = true) := by
  constructor
  · intro h
    unfold ensure_unique_dir
    rw [h]
    rfl
  · intro h
    obtain ⟨i0, hi0, hfree0⟩ := exists_free_cand root dd
      (fun i => candDir name (Nat.repr i))
      (fun j k hjk => candDir_inj _ hjk)
    obtain ⟨i, hi, heq, hfree, hmin⟩ :=
      findFreeDir_spec root dd name ((childrenAt root dd).length + 1) 1 ⟨i0, hi0, hfree0⟩
    refine ⟨1 + i, by omega, ?_, hfree, ?_⟩
    · unfold ensure_unique_dir
      rw [h]
      simpa using heq
    · intro j h1 hj
      have := hmin (j - 1) (by omega)
      have hj1 : 1 + (j - 1) = j := by omega
      rw [hj1] at this
      exact this

theorem ensure_unique_path_free (root : Entry) (dd : List String) (name : String) :
    existsPath root (dd ++ [ensure_unique_path root dd name]) = false := by
  by_cases h : existsPath root (dd ++ [name]) = true
  · obtain ⟨k, _, heq, hfree, _⟩ := (ensure_unique_path_spec root dd name).2 h
    rw [heq]
    exact hfree
  · have hf : existsPath root (dd ++ [name]) = false := by
      cases hx : existsPath root (dd ++ [name])
      · rfl
      · exact absurd hx h
    rw [(ensure_unique_path_spec root dd name).1 hf]
    exact hf

theorem ensure_unique_dir_free (root : Entry) (dd : List String) (name : String) :
    existsPath root (dd ++ [ensure_unique_dir root dd name]) = false := by
  by_cases h : existsPath root (dd ++ [name]) = true
  · obtain ⟨k, _, heq, hfree, _⟩ := (ensure_unique_dir_spec root dd name).2 h
    rw [heq]
    exact hfree
  · have hf : existsPath root (dd ++ [name]) = false := by
      cases hx : existsPath root (dd ++ [name])
      · rfl
      · exact absurd hx h
    rw [(ensure_unique_dir_spec root dd name).1 hf]
    exact hf

end Organizer

namespace Organizer

/-! ### Child-list lemmas -/

theorem lookupChild_erase_ne (cs : List (String × Entry)) (n m : String) (h : m ≠ n) :
    lookupChild (eraseChild cs n) m = lookupChild cs m := by
  induction cs with
  | nil => rfl
  | cons c rest ih =>
    obtain ⟨cn, ce⟩ := c
    by_cases hc : cn = n
    · subst hc
      have hnm : ¬ cn = m := fun h2 => h (Eq.symm h2)
      simp [eraseChild, lookupChild, hnm]
    · simp only [eraseChild, if_neg hc, lookupChild]
      by_cases hm : cn = m
      · rw [if_pos hm, if_pos hm]
      · rw [if_neg hm, if_neg hm]
        exact ih

theorem lookupChild_replace_ne (cs : List (String × Entry)) (n m : String) (x : Entry)
    (h : m ≠ n) : lookupChild (replaceChild cs n x) m = lookupChild cs m := by
  induction cs with
  | nil => rfl
  | cons c rest ih =>
    obtain ⟨cn, ce⟩ := c
    by_cases hc : cn = n
    · subst hc
      have hnm : ¬ cn = m := fun h2 => h (Eq.symm h2)
      simp [replaceChild, lookupChild, hnm]
    · simp only [replaceChild, if_neg hc, lookupChild]
      by_cases hm : cn = m
      · rw [if_pos hm, if_pos hm]
      · rw [if_neg hm, if_neg hm]
        exact ih

theorem lookupChild_replace_eq (cs : List (String × Entry)) (n : String) (x c : Entry)
    (h : lookupChild cs n = some c) : lookupChild (replaceChild cs n x) n = some x := by
  induction cs with
  | nil => simp [lookupChild] at h
  | cons c0 rest ih =>
    obtain ⟨cn, ce⟩ := c0
    by_cases hc : cn = n
    · subst hc
      simp [replaceChild, lookupChild]
    · simp only [replaceChild, if_neg hc, lookupChild] at h ⊢
      exact ih h

theorem lookupChild_append (cs ds : List (String × Entry)) (m : String) :
    lookupChild (cs ++ ds) m =
      (match lookupChild cs m with
       | some c => some c
       | none => lookupChild ds m) := by
  induction cs with
  | nil => simp [lookupChild]
  | cons c rest ih =>
    obtain ⟨cn, ce⟩ := c
    by_cases hc : cn = m
    · simp only [List.cons_append, lookupChild, if_pos hc]
    · simp only [List.cons_append, lookupChild, if_neg hc]
      exact ih

theorem lookupChild_eq_none_of_not_mem (cs : List (String × Entry)) (n : String)
    (h : ¬ n ∈ cs.map Prod.fst) : lookupChild cs n = none := by
  cases hl : lookupChild cs n with
  | none => rfl
  | some c => exact absurd (lookupChild_isSome_mem (by simp [hl])) h

theorem contains_iff_mem (names : List String) (n : String) :
    names.contains n = true ↔ n ∈ names := by
  simp [List.contains]

theorem lookupChild_erase_self (cs : List (String × Entry)) (n : String)
    (h : namesUnique (cs.map Prod.fst) = true) :
    lookupChild (eraseChild cs n) n = none := by
  induction cs with
  | nil => rfl
  | cons c rest ih =>
    obtain ⟨cn, ce⟩ := c
    simp only [List.map_cons, namesUnique, Bool.and_eq_true, Bool.not_eq_true'] at h
    by_cases hc : cn = n
    · simp only [eraseChild, if_pos hc]
      apply lookupChild_eq_none_of_not_mem
      intro hm
      rw [← hc] at hm
      have hcm := (contains_iff_mem (rest.map Prod.fst) cn).mpr hm
      rw [h.1] at hcm
      exact absurd hcm (by simp)
    · simp only [eraseChild, if_neg hc, lookupChild, if_neg hc]
      exact ih h.2

theorem map_fst_replace (cs : List (String × Entry)) (n : String) (x : Entry) :
    (replaceChild cs n x).map Prod.fst = cs.map Prod.fst := by
  induction cs with
  | nil => rfl
  | cons c rest ih =>
    obtain ⟨cn, ce⟩ := c
    by_cases hc : cn = n
    · subst hc
      simp [replaceChild]
    · simp only [replaceChild, if_neg hc, List.map_cons, ih]

theorem eraseChild_sublist (cs : List (String × Entry)) (n : String) :
    (eraseChild cs n).Sublist cs := by
  induction cs with
  | nil => simp [eraseChild]
  | cons c rest ih =>
    obtain ⟨cn, ce⟩ := c
    by_cases hc : cn = n
    · simp only [eraseChild, if_pos hc]
      exact List.sublist_cons_self (cn, ce) rest
    · simp only [eraseChild, if_neg hc]
      exact List.Sublist.cons₂ (cn, ce) ih

theorem namesUnique_erase (cs : List (String × Entry)) (n : String)
    (h : namesUnique (cs.map Prod.fst) = true) :
    namesUnique ((eraseChild cs n).map Prod.fst) = true := by
  induction cs with
  | nil => exact h
  | cons c rest ih =>
    obtain ⟨cn, ce⟩ := c
    simp only [List.map_cons, namesUnique, Bool.and_eq_true, Bool.not_eq_true'] at h
    by_cases hc : cn = n
    · simp only [eraseChild, if_pos hc]
      exact h.2
    · simp only [eraseChild, if_neg hc, List.map_cons, namesUnique, Bool.and_eq_true,
        Bool.not_eq_true']
      refine ⟨?_, ih h.2⟩
      cases hcon : ((eraseChild rest n).map Prod.fst).contains cn
      · rfl
      · exfalso
        have hmem : cn ∈ (eraseChild rest n).map Prod.fst :=
          (contains_iff_mem _ _).mp hcon
        have hsub : ((eraseChild rest n).map Prod.fst).Sublist (rest.map Prod.fst) :=
          (eraseChild_sublist rest n).map Prod.fst
        have hm2 : cn ∈ rest.map Prod.fst := hsub.subset hmem
        have hcm := (contains_iff_mem _ _).mpr hm2
        rw [h.1] at hcm
        exact absurd hcm (by simp)

theorem namesUnique_append_single (names : List String) (n : String)
    (h : namesUnique names = true) (hn : ¬ n ∈ names) :
    namesUnique (names ++ [n]) = true := by
  induction names with
  | nil => simp [namesUnique]
  | cons m rest ih =>
    simp only [namesUnique, Bool.and_eq_true, Bool.not_eq_true'] at h
    simp only [List.cons_append, namesUnique, Bool.and_eq_true, Bool.not_eq_true']
    constructor
    · cases hcon : (rest ++ [n]).contains m
      · rfl
      · exfalso
        have hmm := (contains_iff_mem _ _).mp hcon
        rw [List.mem_append] at hmm
        rcases hmm with hm | hm
        · have hcm := (contains_iff_mem _ _).mpr hm
          rw [h.1] at hcm
          exact absurd hcm (by simp)
        · simp only [List.mem_singleton] at hm
          exact hn (by simp [hm])
    · exact ih h.2 (fun hm => hn (List.mem_cons_of_mem _ hm))

/-! ### Path-disjointness lemmas -/

theorem pathDisj_symm (p q : List String) : pathDisj p q = pathDisj q p := by
  induction p generalizing q with
  | nil => cases q <;> rfl
  | cons a p ih =>
    cases q with
    | nil => rfl
    | cons b q =>
      by_cases hab : a = b
      · subst hab
        simp only [pathDisj, if_pos rfl]
        exact ih q
      · simp only [pathDisj, if_neg hab, if_neg (fun h2 => hab (Eq.symm h2))]

theorem pathDisj_append_left (p q r : List String) (h : pathDisj p q = true) :
    pathDisj (p ++ r) q = true := by
  induction p generalizing q with
  | nil => simp [pathDisj] at h
  | cons a p ih =>
    cases q with
    | nil => simp [pathDisj] at h
    | cons b q =>
      by_cases hab : a = b
      · subst hab
        simp only [pathDisj, if_pos rfl] at h
        simp only [List.cons_append, pathDisj, if_pos rfl]
        exact ih q h
      · simp only [List.cons_append, pathDisj, if_neg hab]

theorem pathDisj_cons_ne {a b : String} (p q : List String) (h : a ≠ b) :
    pathDisj (a :: p) (b :: q) = true := by
  simp only [pathDisj, if_neg h]

theorem pathDisj_cons_eq {a : String} (p q : List String) :
    pathDisj (a :: p) (a :: q) = pathDisj p q := by
  simp [pathDisj]

end Organizer

namespace Organizer

/-! ### Inversion lemmas for the filesystem operations -/

theorem detach_single_inv (cs : List (String × Entry)) (n : String) (e' x : Entry)
    (h : detach (.dir cs) [n] = some (e', x)) :
    lookupChild cs n = some x ∧ e' = .dir (eraseChild cs n) := by
  cases hl : lookupChild cs n with
  | none => simp [detach, hl] at h
  | some c =>
    simp [detach, hl] at h
    exact ⟨by rw [h.2], h.1.symm⟩

theorem detach_cons_inv (cs : List (String × Entry)) (n m : String) (rest : List String)
    (e' x : Entry) (h : detach (.dir cs) (n :: m :: rest) = some (e', x)) :
    ∃ c pr1, lookupChild cs n = some c ∧ detach c (m :: rest) = some (pr1, x) ∧
      e' = .dir (replaceChild cs n pr1) := by
  cases hl : lookupChild cs n with
  | none => simp [detach, hl] at h
  | some c =>
    simp only [detach, hl] at h
    cases hd : detach c (m :: rest) with
    | none => rw [hd] at h; simp at h
    | some pr =>
      rw [hd] at h
      simp only [Option.map_some'] at h
      injection h with h1
      injection h1 with ha hb
      refine ⟨c, pr.1, rfl, ?_, ha.symm⟩
      rw [hd, ← hb]

theorem attach_nil_inv (cs : List (String × Entry)) (name : String) (x e' : Entry)
    (h : attach (.dir cs) [] name x = some e') :
    lookupChild cs name = none ∧ e' = .dir (cs ++ [(name, x)]) := by
  cases hl : lookupChild cs name with
  | none =>
    simp only [attach, hl, Option.some.injEq] at h
    exact ⟨rfl, h.symm⟩
  | some c => simp [attach, hl] at h

theorem attach_cons_inv (cs : List (String × Entry)) (n : String) (rest : List String)
    (name : String) (x e' : Entry) (h : attach (.dir cs) (n :: rest) name x = some e') :
    ∃ c c', lookupChild cs n = some c ∧ attach c rest name x = some c' ∧
      e' = .dir (replaceChild cs n c') := by
  cases hl : lookupChild cs n with
  | none => simp [attach, hl] at h
  | some c =>
    simp only [attach, hl] at h
    cases ha : attach c rest name x with
    | none => rw [ha] at h; simp at h
    | some c' =>
      rw [ha] at h
      simp only [Option.map_some'] at h
      injection h with h1
      exact ⟨c, c', rfl, ha, h1.symm⟩

theorem mkdirParents_cons_inv (cs : List (String × Entry)) (n : String) (rest : List String)
    (e' : Entry) (h : mkdirParents (.dir cs) (n :: rest) = some e') :
    (∃ c c', lookupChild cs n = some c ∧ mkdirParents c rest = some c' ∧
        e' = .dir (replaceChild cs n c')) ∨
    (∃ c', lookupChild cs n = none ∧ mkdirParents (Entry.dir []) rest = some c' ∧
        e' = .dir (cs ++ [(n, c')])) := by
  cases hl : lookupChild cs n with
  | some c =>
    left
    simp only [mkdirParents, hl] at h
    cases hm : mkdirParents c rest with
    | none => rw [hm] at h; simp at h
    | some c' =>
      rw [hm] at h
      simp only [Option.map_some'] at h
      injection h with h1
      exact ⟨c, c', rfl, hm, h1.symm⟩
  | none =>
    right
    simp only [mkdirParents, hl] at h
    cases hm : mkdirParents (Entry.dir []) rest with
    | none => rw [hm] at h; simp at h
    | some c' =>
      rw [hm] at h
      simp only [Option.map_some'] at h
      injection h with h1
      exact ⟨c', rfl, rfl, h1.symm⟩

theorem mkdirParents_isDir : ∀ (e : Entry) (p : List String) (e' : Entry),
    mkdirParents e p = some e' → ∃ cs', e' = .dir cs' := by
  intro e p e' h
  cases e with
  | file d => simp [mkdirParents] at h
  | dir cs =>
    cases p with
    | nil =>
      simp [mkdirParents] at h
      exact ⟨cs, h.symm⟩
    | cons n rest =>
      rcases mkdirParents_cons_inv cs n rest e' h with ⟨c, c', _, _, he⟩ | ⟨c', _, _, he⟩
      · exact ⟨_, he⟩
      · exact ⟨_, he⟩

/-! ### `detach`: lookup, converse, frame -/

theorem detach_get : ∀ (p : List String) (e e' x : Entry),
    detach e p = some (e', x) → getPath e p = some x := by
  intro p
  induction p with
  | nil => intro e e' x h; simp [detach] at h
  | cons n rest ih =>
    intro e e' x h
    cases e with
    | file d => simp [detach] at h
    | dir cs =>
      cases rest with
      | nil =>
        obtain ⟨hl, _⟩ := detach_single_inv cs n e' x h
        simp [getPath, hl]
      | cons m rest2 =>
        obtain ⟨c, pr1, hl, hd, _⟩ := detach_cons_inv cs n m rest2 e' x h
        simp only [getPath, hl]
        exact ih c pr1 x hd

theorem detach_of_get : ∀ (p : List String) (e x : Entry), p ≠ [] →
    getPath e p = some x → ∃ e', detach e p = some (e', x) := by
  intro p
  induction p with
  | nil => intro e x h _; exact absurd rfl h
  | cons n rest ih =>
    intro e x _ hg
    cases e with
    | file d => simp [getPath] at hg
    | dir cs =>
      cases hl : lookupChild cs n with
      | none => simp [getPath, hl] at hg
      | some c =>
        simp only [getPath, hl] at hg
        cases rest with
        | nil =>
          simp only [getPath] at hg
          refine ⟨.dir (eraseChild cs n), ?_⟩
          simp [detach, hl, hg]
        | cons m rest2 =>
          obtain ⟨c', hd⟩ := ih c x (by simp) hg
          refine ⟨.dir (replaceChild cs n c'), ?_⟩
          simp [detach, hl, hd]

theorem detach_frame : ∀ (p : List String) (e e' x : Entry) (q : List String),
    detach e p = some (e', x) → pathDisj p q = true → getPath e' q = getPath e q := by
  intro p
  induction p with
  | nil => intro e e' x q h _; simp [detach] at h
  | cons n rest ih =>
    intro e e' x q h hdq
    cases e with
    | file d => simp [detach] at h
    | dir cs =>
      cases q with
      | nil => simp [pathDisj] at hdq
      | cons b q' =>
        cases rest with
        | nil =>
          obtain ⟨hl, he⟩ := detach_single_inv cs n e' x h
          subst he
          by_cases hb : n = b
          · subst hb
            simp [pathDisj] at hdq
          · simp only [getPath]
            rw [lookupChild_erase_ne cs n b (fun h2 => hb (Eq.symm h2))]
        | cons m rest2 =>
          obtain ⟨c, pr1, hl, hd, he⟩ := detach_cons_inv cs n m rest2 e' x h
          subst he
          by_cases hb : n = b
          · subst hb
            rw [pathDisj_cons_eq] at hdq
            simp only [getPath]
            rw [lookupChild_replace_eq cs n pr1 c hl, hl]
            exact ih c pr1 x q' hd hdq
          · simp only [getPath]
            rw [lookupChild_replace_ne cs n b pr1 (fun h2 => hb (Eq.symm h2))]

/-! ### `attach`: success, effect, frame -/

theorem attach_some_dir : ∀ (dd : List String) (e e' x : Entry) (name : String),
    attach e dd name x = some e' →
    ∃ cs, getPath e dd = some (.dir cs) ∧ lookupChild cs name = none := by
  intro dd
  induction dd with
  | nil =>
    intro e e' x name h
    cases e with
    | file d => simp [attach] at h
    | dir cs =>
      obtain ⟨hl, _⟩ := attach_nil_inv cs name x e' h
      exact ⟨cs, rfl, hl⟩
  | cons n rest ih =>
    intro e e' x name h
    cases e with
    | file d => simp [attach] at h
    | dir cs =>
      obtain ⟨c, c', hl, ha, _⟩ := attach_cons_inv cs n rest name x e' h
      obtain ⟨cs2, hg, hn⟩ := ih c c' x name ha
      exact ⟨cs2, by simp only [getPath, hl]; exact hg, hn⟩

theorem attach_get_dir : ∀ (dd : List String) (e e' x : Entry) (name : String)
    (cs : List (String × Entry)),
    attach e dd name x = some e' → getPath e dd = some (.dir cs) →
    getPath e' dd = some (.dir (cs ++ [(name, x)])) := by
  intro dd
  induction dd with
  | nil =>
    intro e e' x name cs h hg
    cases e with
    | file d => simp [attach] at h
    | dir cs0 =>
      simp only [getPath, Option.some.injEq] at hg
      injection hg with h2
      subst h2
      obtain ⟨_, he⟩ := attach_nil_inv cs0 name x e' h
      subst he
      rfl
  | cons n rest ih =>
    intro e e' x name cs h hg
    cases e with
    | file d => simp [attach] at h
    | dir cs0 =>
      obtain ⟨c, c', hl, ha, he⟩ := attach_cons_inv cs0 n rest name x e' h
      subst he
      simp only [getPath, hl] at hg
      simp only [getPath]
      rw [lookupChild_replace_eq cs0 n c' c hl]
      exact ih c c' x name cs ha hg

theorem attach_of_dir_free : ∀ (dd : List String) (e : Entry) (cs : List (String × Entry))
    (name : String) (x : Entry),
    getPath e dd = some (.dir cs) → lookupChild cs name = none →
    ∃ e', attach e dd name x = some e' := by
  intro dd
  induction dd with
  | nil =>
    intro e cs name x hg hn
    cases e with
    | file d => simp [getPath] at hg
    | dir cs0 =>
      simp only [getPath, Option.some.injEq] at hg
      refine ⟨.dir (cs0 ++ [(name, x)]), ?_⟩
      have : cs0 = cs := by injection hg
      subst this
      simp [attach, hn]
  | cons n rest ih =>
    intro e cs name x hg hn
    cases e with
    | file d => simp [getPath] at hg
    | dir cs0 =>
      cases hl : lookupChild cs0 n with
      | none => simp [getPath, hl] at hg
      | some c =>
        simp only [getPath, hl] at hg
        obtain ⟨c', ha⟩ := ih c cs name x hg hn
        refine ⟨.dir (replaceChild cs0 n c'), ?_⟩
        simp [attach, hl, ha]

theorem attach_get (dd : List String) (e e' x : Entry) (name : String)
    (h : attach e dd name x = some e') : getPath e' (dd ++ [name]) = some x := by
  obtain ⟨cs, hg, hn⟩ := attach_some_dir dd e e' x name h
  have hgd := attach_get_dir dd e e' x name cs h hg
  rw [getPath_append, hgd]
  simp only [Option.some_bind, getPath]
  rw [lookupChild_append, hn]
  simp [lookupChild, getPath]

theorem attach_frame : ∀ (dd : List String) (e e' x : Entry) (name : String) (q : List String),
    attach e dd name x = some e' → pathDisj (dd ++ [name]) q = true →
    getPath e' q = getPath e q := by
  intro dd
  induction dd with
  | nil =>
    intro e e' x name q h hdq
    cases e with
    | file d => simp [attach] at h
    | dir cs =>
      obtain ⟨hl, he⟩ := attach_nil_inv cs name x e' h
      subst he
      cases q with
      | nil => simp [pathDisj] at hdq
      | cons b q' =>
        by_cases hb : name = b
        · subst hb
          simp [pathDisj] at hdq
        · simp only [getPath]
          rw [lookupChild_append]
          cases hcb : lookupChild cs b with
          | some cc => rfl
          | none => simp [lookupChild, (show ¬ name = b from hb)]
  | cons n rest ih =>
    intro e e' x name q h hdq
    cases e with
    | file d => simp [attach] at h
    | dir cs =>
      obtain ⟨c, c', hl, ha, he⟩ := attach_cons_inv cs n rest name x e' h
      subst he
      cases q with
      | nil => simp [pathDisj] at hdq
      | cons b q' =>
        by_cases hb : n = b
        · subst hb
          rw [List.cons_append, pathDisj_cons_eq] at hdq
          simp only [getPath]
          rw [lookupChild_replace_eq cs n c' c hl, hl]
          exact ih c c' x name q' ha hdq
        · simp only [getPath]
          rw [lookupChild_replace_ne cs n b c' (fun h2 => hb (Eq.symm h2))]

/-! ### `mkdirParents`: success, effect, frame -/

theorem mkdirParents_ok : ∀ (p : List String) (e e' : Entry),
    mkdirParents e p = some e' → ∃ cs, getPath e' p = some (.dir cs) := by
  intro p
  induction p with
  | nil =>
    intro e e' h
    cases e with
    | file d => simp [mkdirParents] at h
    | dir cs =>
      simp [mkdirParents] at h
      exact ⟨cs, by rw [← h]; rfl⟩
  | cons n rest ih =>
    intro e e' h
    cases e with
    | file d => simp [mkdirParents] at h
    | dir cs =>
      rcases mkdirParents_cons_inv cs n rest e' h with
        ⟨c, c', hl, hm, he⟩ | ⟨c', hl, hm, he⟩
      · subst he
        obtain ⟨cs2, hg⟩ := ih c c' hm
        exact ⟨cs2, by simp only [getPath]; rw [lookupChild_replace_eq cs n c' c hl]; exact hg⟩
      · subst he
        obtain ⟨cs2, hg⟩ := ih (Entry.dir []) c' hm
        refine ⟨cs2, ?_⟩
        simp only [getPath]
        rw [lookupChild_append, hl]
        simpa [lookupChild] using hg

theorem mkdirParents_frame : ∀ (p : List String) (e e' : Entry) (q : List String),
    mkdirParents e p = some e' → pathDisj p q = true → getPath e' q = getPath e q := by
  intro p
  induction p with
  | nil =>
    intro e e' q h _
    cases e with
    | file d => simp [mkdirParents] at h
    | dir cs =>
      simp [mkdirParents] at h
      rw [← h]
  | cons n rest ih =>
    intro e e' q h hdq
    cases e with
    | file d => simp [mkdirParents] at h
    | dir cs =>
      cases q with
      | nil => simp [pathDisj] at hdq
      | cons b q' =>
        rcases mkdirParents_cons_inv cs n rest e' h with
          ⟨c, c', hl, hm, he⟩ | ⟨c', hl, hm, he⟩
        · subst he
          by_cases hb : n = b
          · subst hb
            rw [pathDisj_cons_eq] at hdq
            simp only [getPath]
            rw [lookupChild_replace_eq cs n c' c hl, hl]
            exact ih c c' q' hm hdq
          · simp only [getPath]
            rw [lookupChild_replace_ne cs n b c' (fun h2 => hb (Eq.symm h2))]
        · subst he
          by_cases hb : n = b
          · subst hb
            rw [pathDisj_cons_eq] at hdq
            have hlk : lookupChild (cs ++ [(n, c')]) n = some c' := by
              rw [lookupChild_append, hl]
              simp [lookupChild]
            simp only [getPath, hlk, hl]
            have hfr := ih (Entry.dir []) c' q' hm hdq
            rw [hfr]
            cases q' with
            | nil =>
              exfalso
              cases rest with
              | nil => simp [pathDisj] at hdq
              | cons r rs => simp [pathDisj] at hdq
            | cons bb qq => simp [getPath, lookupChild]
          · simp only [getPath]
            rw [lookupChild_append]
            cases hcb : lookupChild cs b with
            | some cc => rfl
            | none => simp [lookupChild, (show ¬ n = b from hb)]

theorem mkdirParents_head_not_file (cs : List (String × Entry)) (n : String)
    (rest : List String) (e' : Entry) (h : mkdirParents (.dir cs) (n :: rest) = some e') :
    ∀ d, lookupChild cs n ≠ some (.file d) := by
  intro d hcontra
  rcases mkdirParents_cons_inv cs n rest e' h with ⟨c, c', hl, hm, _⟩ | ⟨c', hl, _, _⟩
  · rw [hl] at hcontra
    injection hcontra with hc
    subst hc
    simp [mkdirParents] at hm
  · rw [hl] at hcontra
    exact absurd hcontra (by simp)

end Organizer

namespace Organizer

/-! ### File multiset preservation -/

theorem filesOfChildren_append (cs ds : List (String × Entry)) :
    filesOfChildren (cs ++ ds) = filesOfChildren cs + filesOfChildren ds := by
  induction cs with
  | nil => simp [filesOfChildren]
  | cons c rest ih => simp [filesOfChildren, ih, add_assoc]

theorem filesOf_erase (cs : List (String × Entry)) (n : String) (c : Entry)
    (h : lookupChild cs n = some c) :
    filesOfChildren (eraseChild cs n) + filesOf c = filesOfChildren cs := by
  induction cs with
  | nil => simp [lookupChild] at h
  | cons c0 rest ih =>
    obtain ⟨cn, ce⟩ := c0
    by_cases hc : cn = n
    · simp only [lookupChild, if_pos hc] at h
      injection h with h1
      subst h1
      simp only [eraseChild, if_pos hc, filesOfChildren]
      exact add_comm _ _
    · simp only [lookupChild, if_neg hc] at h
      simp only [eraseChild, if_neg hc, filesOfChildren]
      rw [add_assoc, ih h]

theorem filesOf_replace (cs : List (String × Entry)) (n : String) (x c : Entry)
    (h : lookupChild cs n = some c) :
    filesOfChildren (replaceChild cs n x) + filesOf c = filesOfChildren cs + filesOf x := by
  induction cs with
  | nil => simp [lookupChild] at h
  | cons c0 rest ih =>
    obtain ⟨cn, ce⟩ := c0
    by_cases hc : cn = n
    · simp only [lookupChild, if_pos hc] at h
      injection h with h1
      subst h1
      simp only [replaceChild, if_pos hc, filesOfChildren]
      simp [add_comm, add_left_comm, add_assoc]
    · simp only [lookupChild, if_neg hc] at h
      simp only [replaceChild, if_neg hc, filesOfChildren]
      rw [add_assoc, ih h]
      simp [add_comm, add_left_comm, add_assoc]

theorem detach_files : ∀ (p : List String) (e e' x : Entry),
    detach e p = some (e', x) → filesOf e' + filesOf x = filesOf e := by
  intro p
  induction p with
  | nil => intro e e' x h; simp [detach] at h
  | cons n rest ih =>
    intro e e' x h
    cases e with
    | file d => simp [detach] at h
    | dir cs =>
      cases rest with
      | nil =>
        obtain ⟨hl, he⟩ := detach_single_inv cs n e' x h
        subst he
        show filesOfChildren (eraseChild cs n) + filesOf x = filesOfChildren cs
        exact filesOf_erase cs n x hl
      | cons m rest2 =>
        obtain ⟨c, pr1, hl, hd, he⟩ := detach_cons_inv cs n m rest2 e' x h
        subst he
        have hrep := filesOf_replace cs n pr1 c hl
        have hih := ih c pr1 x hd
        show filesOfChildren (replaceChild cs n pr1) + filesOf x = filesOfChildren cs
        have : filesOfChildren (replaceChild cs n pr1) + filesOf x + filesOf pr1 =
            filesOfChildren cs + filesOf pr1 := by
          rw [add_right_comm, hrep.symm]
          rw [← hih]
          simp [add_comm, add_left_comm, add_assoc]
        exact add_right_cancel this

theorem attach_files : ∀ (dd : List String) (e e' x : Entry) (name : String),
    attach e dd name x = some e' → filesOf e' = filesOf e + filesOf x := by
  intro dd
  induction dd with
  | nil =>
    intro e e' x name h
    cases e with
    | file d => simp [attach] at h
    | dir cs =>
      obtain ⟨_, he⟩ := attach_nil_inv cs name x e' h
      subst he
      show filesOfChildren (cs ++ [(name, x)]) = filesOfChildren cs + filesOf x
      rw [filesOfChildren_append]
      simp [filesOfChildren]
  | cons n rest ih =>
    intro e e' x name h
    cases e with
    | file d => simp [attach] at h
    | dir cs =>
      obtain ⟨c, c', hl, ha, he⟩ := attach_cons_inv cs n rest name x e' h
      subst he
      have hrep := filesOf_replace cs n c' c hl
      have hih := ih c c' x name ha
      show filesOfChildren (replaceChild cs n c') = filesOfChildren cs + filesOf x
      have : filesOfChildren (replaceChild cs n c') + filesOf c =
          filesOfChildren cs + filesOf x + filesOf c := by
        rw [hrep, hih]
        simp [add_comm, add_left_comm, add_assoc]
      exact add_right_cancel this

theorem mkdirParents_files : ∀ (p : List String) (e e' : Entry),
    mkdirParents e p = some e' → filesOf e' = filesOf e := by
  intro p
  induction p with
  | nil =>
    intro e e' h
    cases e with
    | file d => simp [mkdirParents] at h
    | dir cs =>
      simp [mkdirParents] at h
      rw [← h]
  | cons n rest ih =>
    intro e e' h
    cases e with
    | file d => simp [mkdirParents] at h
    | dir cs =>
      rcases mkdirParents_cons_inv cs n rest e' h with
        ⟨c, c', hl, hm, he⟩ | ⟨c', hl, hm, he⟩
      · subst he
        have hrep := filesOf_replace cs n c' c hl
        have hih := ih c c' hm
        show filesOfChildren (replaceChild cs n c') = filesOfChildren cs
        have : filesOfChildren (replaceChild cs n c') + filesOf c =
            filesOfChildren cs + filesOf c := by
          rw [hrep, hih]
        exact add_right_cancel this
      · subst he
        have hih := ih (Entry.dir []) c' hm
        show filesOfChildren (cs ++ [(n, c')]) = filesOfChildren cs
        rw [filesOfChildren_append]
        have h0 : filesOf c' = 0 := by
          rw [hih]
          show filesOfChildren [] = 0
          rfl
        simp [filesOfChildren, h0]

theorem rmdirIfEmpty_files (e : Entry) (p : List String) :
    filesOf (rmdirIfEmpty e p) = filesOf e := by
  unfold rmdirIfEmpty
  cases hg : getPath e p with
  | none => rfl
  | some x =>
    cases x with
    | file d => rfl
    | dir cs =>
      cases cs with
      | cons c rest => rfl
      | nil =>
        cases hd : detach e p with
        | none => rfl
        | some pr =>
          have hget := detach_get p e pr.1 pr.2 (by rw [hd])
          rw [hget] at hg
          injection hg with hg1
          have hfiles := detach_files p e pr.1 pr.2 (by rw [hd])
          rw [hg1] at hfiles
          show filesOf pr.1 = filesOf e
          simpa [filesOf, filesOfChildren] using hfiles

theorem rmdirIfEmpty_frame (e : Entry) (p q : List String) (h : pathDisj p q = true) :
    getPath (rmdirIfEmpty e p) q = getPath e q := by
  unfold rmdirIfEmpty
  cases hg : getPath e p with
  | none => rfl
  | some x =>
    cases x with
    | file d => rfl
    | dir cs =>
      cases cs with
      | cons c rest => rfl
      | nil =>
        cases hd : detach e p with
        | none => rfl
        | some pr =>
          exact detach_frame p e pr.1 pr.2 q (by rw [hd]) h

theorem rmdirIfEmpty_keep_nonempty (e : Entry) (p : List String) (c : String × Entry)
    (cs : List (String × Entry)) (h : getPath e p = some (.dir (c :: cs))) :
    rmdirIfEmpty e p = e := by
  simp [rmdirIfEmpty, h]

/-! ### One move -/

theorem moveOp_ok_inv (root : Entry) (src dd : List String) (name : String)
    (root' : Entry) (r : MoveRec) (h : moveOp root src dd name = .ok (root', r)) :
    r = (src, dd ++ [name]) ∧ existsPath root (dd ++ [name]) = false ∧
    ∃ root1 x, detach root src = some (root1, x) ∧ attach root1 dd name x = some root' := by
  unfold moveOp at h
  cases hex : existsPath root (dd ++ [name]) with
  | true => simp [hex] at h
  | false =>
    simp only [hex, Bool.false_eq_true, if_false] at h
    cases hd : detach root src with
    | none => simp [hd] at h
    | some pr =>
      obtain ⟨root1, x⟩ := pr
      simp only [hd] at h
      cases ha : attach root1 dd name x with
      | none => simp [ha] at h
      | some root2 =>
        simp only [ha, Except.ok.injEq, Prod.mk.injEq] at h
        obtain ⟨h1, h2⟩ := h
        exact ⟨h2.symm, rfl, root1, x, rfl, by rw [ha, h1]⟩

theorem moveOp_frame (root : Entry) (src dd : List String) (name : String)
    (root' : Entry) (r : MoveRec) (q : List String)
    (h : moveOp root src dd name = .ok (root', r)) (h1 : pathDisj src q = true)
    (h2 : pathDisj (dd ++ [name]) q = true) : getPath root' q = getPath root q := by
  obtain ⟨-, -, root1, x, hd, ha⟩ := moveOp_ok_inv root src dd name root' r h
  rw [attach_frame dd root1 root' x name q ha h2, detach_frame src root root1 x q hd h1]

theorem moveOp_files (root : Entry) (src dd : List String) (name : String)
    (root' : Entry) (r : MoveRec) (h : moveOp root src dd name = .ok (root', r)) :
    filesOf root' = filesOf root := by
  obtain ⟨-, -, root1, x, hd, ha⟩ := moveOp_ok_inv root src dd name root' r h
  rw [attach_files dd root1 root' x name ha, ← detach_files src root root1 x hd]

end Organizer

namespace Organizer

/-! ### Helpers about names, destinations and top-level lookups -/

theorem getPath_single (cs : List (String × Entry)) (n : String) :
    getPath (.dir cs) [n] = lookupChild cs n := by
  cases hl : lookupChild cs n <;> simp [getPath, hl]

theorem splitPathAux_ne_nil : ∀ (l acc : List Char), splitPathAux l acc ≠ [] := by
  intro l
  induction l with
  | nil => intro acc; simp [splitPathAux]
  | cons c rest ih =>
    intro acc
    by_cases hc : c = '/'
    · simp [splitPathAux, hc]
    · simp only [splitPathAux, if_neg hc]
      exact ih _

theorem splitPath_ne_nil (s : String) : splitPath s ≠ [] := splitPathAux_ne_nil _ _

theorem destRootOf_ne_nil (name : String) : destRootOf name ≠ [] := by
  unfold destRootOf
  cases resolve_destination name with
  | none => simp
  | some d => exact splitPath_ne_nil d

theorem findSome?_mem {α β : Type} (f : α → Option β) :
    ∀ (l : List α) (b : β), l.findSome? f = some b → ∃ a ∈ l, f a = some b := by
  intro l
  induction l with
  | nil => intro b h; simp [List.findSome?] at h
  | cons a rest ih =>
    intro b h
    cases hf : f a with
    | some c =>
      refine ⟨a, by simp, ?_⟩
      rw [hf]
      rw [List.findSome?_cons, hf] at h
      exact h
    | none =>
      rw [List.findSome?_cons, hf] at h
      obtain ⟨a', ha', hfa⟩ := ih b h
      exact ⟨a', by simp [ha'], hfa⟩

theorem resolve_mem (name d : String) (h : resolve_destination name = some d) :
    d ∈ CATEGORY_MAP.map Prod.fst := by
  simp only [resolve_destination] at h
  obtain ⟨r, hr, hfr⟩ := findSome?_mem _ _ _ h
  by_cases hin : strLower (pySuffix name) ∈ r.2
  · rw [if_pos hin] at hfr
    injection hfr with h1
    subst h1
    exact List.mem_map_of_mem _ hr
  · rw [if_neg hin] at hfr
    simp at hfr

theorem destRootOf_head (name : String) :
    ∃ t, destRootOf name = "Documents" :: t ∨ destRootOf name = "Media" :: t ∨
         destRootOf name = "Other" :: t := by
  unfold destRootOf
  cases hr : resolve_destination name with
  | none => exact ⟨[], Or.inr (Or.inr rfl)⟩
  | some d =>
    have hd := resolve_mem name d hr
    simp only [CATEGORY_MAP, List.map_cons, List.map_nil, List.mem_cons,
      List.not_mem_nil, or_false] at hd
    rcases hd with rfl | rfl | rfl | rfl | rfl | rfl
    · exact ⟨["Excel"], Or.inl rfl⟩
    · exact ⟨["Word"], Or.inl rfl⟩
    · exact ⟨["PDF"], Or.inl rfl⟩
    · exact ⟨["Text"], Or.inl rfl⟩
    · exact ⟨["Images"], Or.inr (Or.inl rfl)⟩
    · exact ⟨["Videos"], Or.inr (Or.inl rfl)⟩

theorem eraseChild_append_self (cs : List (String × Entry)) (n : String) (x : Entry)
    (h : lookupChild cs n = none) : eraseChild (cs ++ [(n, x)]) n = cs := by
  induction cs with
  | nil => simp [eraseChild]
  | cons c rest ih =>
    obtain ⟨cn, ce⟩ := c
    by_cases hc : cn = n
    · simp [lookupChild, hc] at h
    · simp only [lookupChild, if_neg hc] at h
      simp only [List.cons_append, eraseChild, if_neg hc, List.append_eq]
      rw [ih h]

theorem attach_isDir : ∀ (dd : List String) (e e' x : Entry) (name : String),
    attach e dd name x = some e' → ∃ cs', e' = .dir cs' := by
  intro dd e e' x name h
  cases e with
  | file d => simp [attach] at h
  | dir cs =>
    cases dd with
    | nil =>
      obtain ⟨-, he⟩ := attach_nil_inv cs name x e' h
      exact ⟨_, he⟩
    | cons a rest =>
      obtain ⟨c, c', -, -, he⟩ := attach_cons_inv cs a rest name x e' h
      exact ⟨_, he⟩

/-! ### Anatomy of one first-pass step -/

theorem step1_ok_not_none (cur : Entry) (n : String) (out : Entry × List MoveRec)
    (h : step1 cur n = .ok out) : getPath cur [n] ≠ none := by
  intro hg
  unfold step1 at h
  rw [hg] at h
  cases hmk : mkdirParents cur (destRootOf n) with
  | none => simp [hmk] at h
  | some cur1 =>
    simp only [hmk] at h
    cases hmv : moveOp cur1 [n] (destRootOf n) (ensure_unique_path cur1 (destRootOf n) n) with
    | error e => simp [hmv, Except.map] at h
    | ok pr =>
      obtain ⟨hrec, hex, root1, x, hd, ha⟩ := moveOp_ok_inv _ _ _ _ _ _ hmv
      obtain ⟨dh, dt, hdr⟩ : ∃ dh dt, destRootOf n = dh :: dt := by
        cases hdr : destRootOf n with
        | nil => exact absurd hdr (destRootOf_ne_nil n)
        | cons a b => exact ⟨a, b, rfl⟩
      cases hcur : cur with
      | file d0 => rw [hcur] at hmk; simp [mkdirParents] at hmk
      | dir cs =>
        rw [hcur] at hg hmk
        rw [getPath_single] at hg
        rw [hdr] at hmk
        by_cases hdh : dh = n
        · subst hdh
          rcases mkdirParents_cons_inv cs dh dt cur1 hmk with
            ⟨c, c', hl, -, -⟩ | ⟨c', hl, hm2, he⟩
          · rw [hg] at hl
            exact absurd hl (by simp)
          · subst he
            obtain ⟨hlx, hroot1⟩ := detach_single_inv _ dh root1 x hd
            subst hroot1
            rw [eraseChild_append_self cs dh c' hg] at ha
            rw [hdr] at ha
            obtain ⟨c2, c2', hl2, -, -⟩ := attach_cons_inv cs dh dt _ x _ ha
            rw [hg] at hl2
            exact absurd hl2 (by simp)
        · have hfr := mkdirParents_frame (dh :: dt) (.dir cs) cur1 [n] hmk
            (pathDisj_cons_ne _ _ hdh)
          rw [getPath_single, hg] at hfr
          have hget := detach_get [n] cur1 root1 x hd
          rw [hget] at hfr
          exact absurd hfr.symm (by simp)

theorem step1_ok_inv (cur cur' : Entry) (n : String) (recs : List MoveRec)
    (h : step1 cur n = .ok (cur', recs)) :
    (∃ cs, getPath cur [n] = some (.dir cs) ∧ cur' = cur ∧ recs = []) ∨
    (∃ d cur1, getPath cur [n] = some (.file d) ∧
       mkdirParents cur (destRootOf n) = some cur1 ∧
       moveOp cur1 [n] (destRootOf n) (ensure_unique_path cur1 (destRootOf n) n) =
         .ok (cur', ([n], destRootOf n ++ [ensure_unique_path cur1 (destRootOf n) n])) ∧
       recs = [([n], destRootOf n ++ [ensure_unique_path cur1 (destRootOf n) n])]) := by
  cases hg : getPath cur [n] with
  | none => exact absurd hg (step1_ok_not_none cur n (cur', recs) h)
  | some xe =>
    cases xe with
    | dir cs =>
      left
      unfold step1 at h
      rw [hg] at h
      simp only [Except.ok.injEq, Prod.mk.injEq] at h
      exact ⟨cs, rfl, h.1.symm, h.2.symm⟩
    | file d =>
      right
      unfold step1 at h
      rw [hg] at h
      cases hmk : mkdirParents cur (destRootOf n) with
      | none => simp [hmk] at h
      | some cur1 =>
        simp only [hmk] at h
        cases hmv : moveOp cur1 [n] (destRootOf n) (ensure_unique_path cur1 (destRootOf n) n) with
        | error e => simp [hmv, Except.map] at h
        | ok pr =>
          simp only [hmv, Except.map, Except.ok.injEq, Prod.mk.injEq] at h
          obtain ⟨h1, h2⟩ := h
          obtain ⟨hrec, -, -⟩ := moveOp_ok_inv _ _ _ _ _ _ hmv
          refine ⟨d, cur1, rfl, rfl, ?_, ?_⟩
          · rw [hmv]
            obtain ⟨pr1, pr2⟩ := pr
            simp only at h1
            rw [h1]
            simp only at hrec
            rw [hrec]
          · rw [h2.symm, hrec]
  
end Organizer

namespace Organizer

/-! ### Top-level kind preservation through the operations -/

theorem destRootOf_cons (name : String) : ∃ dh dt, destRootOf name = dh :: dt := by
  cases hdr : destRootOf name with
  | nil => exact absurd hdr (destRootOf_ne_nil name)
  | cons a b => exact ⟨a, b, rfl⟩

theorem mkdir_top_dir (cs cs1 : List (String × Entry)) (p : List String) (m : String)
    (ds : List (String × Entry))
    (h : mkdirParents (.dir cs) p = some (.dir cs1))
    (hm : lookupChild cs m = some (.dir ds)) :
    ∃ ds', lookupChild cs1 m = some (.dir ds') := by
  cases p with
  | nil =>
    simp only [mkdirParents, Option.some.injEq] at h
    injection h with h1
    subst h1
    exact ⟨ds, hm⟩
  | cons a rest =>
    rcases mkdirParents_cons_inv cs a rest _ h with ⟨c, c', hl, hmk2, he⟩ | ⟨c', hl, hmk2, he⟩
    · injection he with he1
      subst he1
      by_cases ham : a = m
      · subst ham
        rw [hl] at hm
        injection hm with hm1
        subst hm1
        obtain ⟨cs2, hc2⟩ := mkdirParents_isDir _ _ _ hmk2
        subst hc2
        exact ⟨cs2, lookupChild_replace_eq cs a _ _ hl⟩
      · refine ⟨ds, ?_⟩
        rw [lookupChild_replace_ne cs a m c' (fun h2 => ham (Eq.symm h2))]
        exact hm
    · injection he with he1
      subst he1
      refine ⟨ds, ?_⟩
      rw [lookupChild_append, hm]

theorem attach_top_dir (cs cs1 : List (String × Entry)) (dd : List String) (name : String)
    (x : Entry) (m : String) (ds : List (String × Entry))
    (h : attach (.dir cs) dd name x = some (.dir cs1))
    (hm : lookupChild cs m = some (.dir ds)) :
    ∃ ds', lookupChild cs1 m = some (.dir ds') := by
  cases dd with
  | nil =>
    obtain ⟨hl, he⟩ := attach_nil_inv cs name x _ h
    injection he with he1
    subst he1
    refine ⟨ds, ?_⟩
    rw [lookupChild_append, hm]
  | cons a rest =>
    obtain ⟨c, c', hl, ha2, he⟩ := attach_cons_inv cs a rest name x _ h
    injection he with he1
    subst he1
    by_cases ham : a = m
    · subst ham
      rw [hl] at hm
      injection hm with hm1
      subst hm1
      obtain ⟨cs2, hc2⟩ := attach_isDir _ _ _ _ _ ha2
      subst hc2
      exact ⟨cs2, lookupChild_replace_eq cs a _ _ hl⟩
    · refine ⟨ds, ?_⟩
      rw [lookupChild_replace_ne cs a m c' (fun h2 => ham (Eq.symm h2))]
      exact hm

/-! ### Full anatomy of a moved file in the first pass -/

theorem step1_move_anatomy
    (cs : List (String × Entry)) (cur1 cur' : Entry) (n : String) (d : Nat) (t : String)
    (r : MoveRec)
    (hfile : lookupChild cs n = some (.file d))
    (hmk : mkdirParents (.dir cs) (destRootOf n) = some cur1)
    (hmv : moveOp cur1 [n] (destRootOf n) t = .ok (cur', r)) :
    (∀ q, pathDisj (destRootOf n) q = true → pathDisj [n] q = true →
       getPath cur' q = getPath (.dir cs) q) ∧
    filesOf cur' = filesOf (.dir cs) ∧
    (∀ m ds, lookupChild cs m = some (.dir ds) → ∃ ds', getPath cur' [m] = some (.dir ds')) ∧
    (∀ m d2, m ≠ n → lookupChild cs m = some (.file d2) → getPath cur' [m] = some (.file d2)) ∧
    (namesUnique (cs.map Prod.fst) = true →
       getPath cur' [n] = none ∧ namesUnique (topNames cur') = true) := by
  obtain ⟨dh, dt, hdr⟩ := destRootOf_cons n
  have hdh : dh ≠ n := by
    intro he
    rw [hdr] at hmk
    exact mkdirParents_head_not_file cs dh dt cur1 hmk d (he ▸ hfile)
  obtain ⟨cs1, hcs1⟩ := mkdirParents_isDir _ _ _ hmk
  subst hcs1
  have hl1 : lookupChild cs1 n = some (.file d) := by
    have hfr := mkdirParents_frame (destRootOf n) (.dir cs) (.dir cs1) [n] hmk
      (by rw [hdr]; exact pathDisj_cons_ne _ _ hdh)
    rw [getPath_single, getPath_single] at hfr
    rw [hfr, hfile]
  obtain ⟨hrec, hex, root1, x, hd, ha⟩ := moveOp_ok_inv _ _ _ _ _ _ hmv
  obtain ⟨hlx, hroot1⟩ := detach_single_inv cs1 n root1 x hd
  rw [hl1] at hlx
  injection hlx with hx
  subst hx
  subst hroot1
  obtain ⟨cs', hcs'⟩ := attach_isDir _ _ _ _ _ ha
  subst hcs'
  have hframe : ∀ q, pathDisj (destRootOf n) q = true → pathDisj [n] q = true →
      getPath (.dir cs') q = getPath (.dir cs) q := by
    intro q hq1 hq2
    have h1 : getPath (.dir cs') q = getPath (.dir (eraseChild cs1 n)) q :=
      attach_frame _ _ _ _ _ q ha (pathDisj_append_left _ _ _ hq1)
    have h2 : getPath (.dir (eraseChild cs1 n)) q = getPath (.dir cs1) q :=
      detach_frame [n] _ _ _ q hd hq2
    have h3 : getPath (.dir cs1) q = getPath (.dir cs) q :=
      mkdirParents_frame _ _ _ q hmk hq1
    rw [h1, h2, h3]
  have hfiles : filesOf (.dir cs') = filesOf (.dir cs) := by
    rw [attach_files _ _ _ _ _ ha]
    have hdf := detach_files [n] (.dir cs1) _ _ hd
    have hmf := mkdirParents_files _ _ _ hmk
    rw [← hmf]
    exact hdf
  refine ⟨hframe, hfiles, ?_, ?_, ?_⟩
  · intro m ds hm
    obtain ⟨ds1, hm1⟩ := mkdir_top_dir cs cs1 _ m ds hmk hm
    have hmn : m ≠ n := by
      intro he
      rw [he, hfile] at hm
      exact absurd hm (by simp)
    have hm2 : lookupChild (eraseChild cs1 n) m = some (.dir ds1) := by
      rw [lookupChild_erase_ne cs1 n m hmn]
      exact hm1
    obtain ⟨ds2, hm3⟩ := attach_top_dir (eraseChild cs1 n) cs' _ t (.file d) m ds1 ha hm2
    rw [getPath_single]
    exact ⟨ds2, hm3⟩
  · intro m d2 hmn hm
    have hmdh : m ≠ dh := by
      intro he
      rw [hdr] at hmk
      exact mkdirParents_head_not_file cs dh dt _ hmk d2 (he ▸ hm)
    have := hframe [m]
      (by rw [hdr]; exact pathDisj_cons_ne _ _ (fun h2 => hmdh (Eq.symm h2)))
      (pathDisj_cons_ne _ _ (fun h2 => hmn (Eq.symm h2)))
    rw [this, getPath_single]
    exact hm
  · intro hu
    have hu1 : namesUnique (cs1.map Prod.fst) = true := by
      rw [hdr] at hmk
      rcases mkdirParents_cons_inv cs dh dt _ hmk with ⟨c, c', hl, -, he⟩ | ⟨c', hl, -, he⟩
      · injection he with he1
        subst he1
        rw [map_fst_replace]
        exact hu
      · injection he with he1
        subst he1
        rw [List.map_append]
        refine namesUnique_append_single _ _ hu ?_
        intro hmem
        have := lookupChild_isSome_of_mem hmem
        rw [hl] at this
        simp at this
    rw [hdr] at ha
    obtain ⟨c2, c2', hl2, ha2, he2⟩ := attach_cons_inv (eraseChild cs1 n) dh dt t (.file d) _ ha
    injection he2 with he3
    subst he3
    constructor
    · rw [getPath_single]
      rw [lookupChild_replace_ne _ dh n c2' (fun h2 => hdh (Eq.symm h2))]
      exact lookupChild_erase_self cs1 n hu1
    · show namesUnique ((replaceChild (eraseChild cs1 n) dh c2').map Prod.fst) = true
      rw [map_fst_replace]
      exact namesUnique_erase cs1 n hu1

end Organizer

namespace Organizer

/-! ### The first pass: records, shapes, preservation -/

theorem passFiles_facts : ∀ (ns : List String) (cur cur' : Entry) (acc mv : List MoveRec),
    passFiles cur ns acc = .ok (cur', mv) →
    (∃ tail, mv = acc ++ tail ∧
       (∀ r ∈ tail, ∃ n t, n ∈ ns ∧ r = ([n], destRootOf n ++ [t])) ∧
       (∀ m ds, getPath cur [m] = some (.dir ds) → ∀ r ∈ tail, r.1 ≠ [m])) ∧
    filesOf cur' = filesOf cur ∧
    (∀ m ds, getPath cur [m] = some (.dir ds) → ∃ ds', getPath cur' [m] = some (.dir ds')) ∧
    (∀ m ds, m ≠ "Documents" → m ≠ "Media" → m ≠ "Other" →
       getPath cur [m] = some (.dir ds) → getPath cur' [m] = some (.dir ds)) := by
  intro ns
  induction ns with
  | nil =>
    intro cur cur' acc mv h
    simp only [passFiles, Except.ok.injEq, Prod.mk.injEq] at h
    obtain ⟨h1, h2⟩ := h
    subst h1
    subst h2
    exact ⟨⟨[], by simp, by simp, by simp⟩, rfl, fun m ds hm => ⟨ds, hm⟩,
      fun m ds _ _ _ hm => hm⟩
  | cons n rest ih =>
    intro cur cur' acc mv h
    cases hs : step1 cur n with
    | error e => simp [passFiles, hs] at h
    | ok pr =>
      obtain ⟨c2, rs⟩ := pr
      simp only [passFiles, hs] at h
      obtain ⟨⟨tail, htail, hshape, hnotdir⟩, hfiles, hdirs, hdirse⟩ :=
        ih c2 cur' (acc ++ rs) mv h
      rcases step1_ok_inv cur c2 n rs hs with
        ⟨cs0, hgd, hceq, hrs⟩ | ⟨d, cur1, hgf, hmk, hmv, hrs⟩
      · subst hceq
        subst hrs
        rw [List.append_nil] at htail
        refine ⟨⟨tail, htail, ?_, hnotdir⟩, hfiles, hdirs, hdirse⟩
        intro r hr
        obtain ⟨n2, t2, hn2, hr2⟩ := hshape r hr
        exact ⟨n2, t2, by simp [hn2], hr2⟩
      · subst hrs
        obtain ⟨cs, hcur⟩ : ∃ cs, cur = .dir cs := by
          cases cur with
          | file d0 => simp [getPath] at hgf
          | dir cs => exact ⟨cs, rfl⟩
        subst hcur
        rw [getPath_single] at hgf
        obtain ⟨hframe, hfiles2, hdirk, hfilek, hgone⟩ :=
          step1_move_anatomy cs cur1 c2 n d _ _ hgf hmk hmv
        refine ⟨?_, ?_, ?_, ?_⟩
        · refine ⟨([n], destRootOf n ++ [ensure_unique_path cur1 (destRootOf n) n]) :: tail,
            ?_, ?_, ?_⟩
          · rw [htail]
            simp
          · intro r hr
            rcases List.mem_cons.mp hr with hr1 | hr2
            · exact ⟨n, ensure_unique_path cur1 (destRootOf n) n, by simp, hr1⟩
            · obtain ⟨n2, t2, hn2, hr2'⟩ := hshape r hr2
              exact ⟨n2, t2, by simp [hn2], hr2'⟩
          · intro m ds hm r hr
            rw [getPath_single] at hm
            rcases List.mem_cons.mp hr with hr1 | hr2
            · rw [hr1]
              simp only [ne_eq, List.cons.injEq, and_true]
              intro he
              rw [he] at hgf
              rw [hgf] at hm
              exact absurd hm (by simp)
            · obtain ⟨ds', hm2⟩ := hdirk m ds hm
              exact hnotdir m ds' hm2 r hr2
        · rw [hfiles, hfiles2]
        · intro m ds hm
          rw [getPath_single] at hm
          obtain ⟨ds', hm2⟩ := hdirk m ds hm
          exact hdirs m ds' hm2
        · intro m ds hD hM hO hm
          rw [getPath_single] at hm
          have hnm : n ≠ m := by
            intro he
            rw [he] at hgf
            rw [hgf] at hm
            exact absurd hm (by simp)
          have hpd : pathDisj (destRootOf n) [m] = true := by
            obtain ⟨tl, hh⟩ := destRootOf_head n
            rcases hh with hh | hh | hh <;>
              rw [hh] <;>
              exact pathDisj_cons_ne _ _ (fun h2 => by simp_all)
          have hfr := hframe [m] hpd (pathDisj_cons_ne _ _ hnm)
          have hc2 : getPath c2 [m] = some (.dir ds) := by
            rw [hfr, getPath_single]
            exact hm
          exact hdirse m ds hD hM hO hc2

end Organizer

namespace Organizer

theorem passFiles_mono : ∀ (ns : List String) (cur cur' : Entry) (acc mv : List MoveRec),
    passFiles cur ns acc = .ok (cur', mv) → ∃ tail, mv = acc ++ tail := by
  intro ns cur cur' acc mv h
  obtain ⟨⟨tail, ht, -, -⟩, -, -, -⟩ := passFiles_facts ns cur cur' acc mv h
  exact ⟨tail, ht⟩

theorem passFiles_records : ∀ (ns : List String) (cur cur' : Entry) (acc mv : List MoveRec),
    passFiles cur ns acc = .ok (cur', mv) → namesUnique ns = true →
    ∀ n ∈ ns, ∀ d, getPath cur [n] = some (.file d) →
      ∃ t, ([n], destRootOf n ++ [t]) ∈ mv := by
  intro ns
  induction ns with
  | nil =>
    intro cur cur' acc mv h hns n hn
    simp at hn
  | cons n0 rest ih =>
    intro cur cur' acc mv h hns n hn d hgf
    cases hs : step1 cur n0 with
    | error e => simp [passFiles, hs] at h
    | ok pr =>
      obtain ⟨c2, rs⟩ := pr
      simp only [passFiles, hs] at h
      simp only [List.map_cons, namesUnique, Bool.and_eq_true, Bool.not_eq_true'] at hns
      rcases List.mem_cons.mp hn with rfl | hn2
      · rcases step1_ok_inv cur c2 n rs hs with
          ⟨cs0, hgd, -, -⟩ | ⟨d2, cur1, hgf2, hmk, hmv, hrs⟩
        · rw [hgf] at hgd
          exact absurd hgd (by simp)
        · obtain ⟨tail, ht⟩ := passFiles_mono rest c2 cur' (acc ++ rs) mv h
          subst hrs
          refine ⟨ensure_unique_path cur1 (destRootOf n) n, ?_⟩
          rw [ht]
          simp
      · rcases step1_ok_inv cur c2 n0 rs hs with
          ⟨cs0, hgd, hceq, -⟩ | ⟨d2, cur1, hgf2, hmk, hmv, -⟩
        · subst hceq
          exact ih c2 cur' (acc ++ rs) mv h hns.2 n hn2 d hgf
        · obtain ⟨cs, hcur⟩ : ∃ cs, cur = .dir cs := by
            cases cur with
            | file d0 => simp [getPath] at hgf2
            | dir cs => exact ⟨cs, rfl⟩
          subst hcur
          rw [getPath_single] at hgf hgf2
          obtain ⟨-, -, -, hfilek, -⟩ :=
            step1_move_anatomy cs cur1 c2 n0 d2 _ _ hgf2 hmk hmv
          have hne : n ≠ n0 := by
            intro he
            subst he
            have hmem := (contains_iff_mem rest n).mpr hn2
            rw [hns.1] at hmem
            exact absurd hmem (by simp)
          have hc2 := hfilek n d hne hgf
          exact ih c2 cur' (acc ++ rs) mv h hns.2 n hn2 d hc2

theorem passFiles_topstate : ∀ (ns : List String) (cur cur' : Entry) (acc mv : List MoveRec),
    passFiles cur ns acc = .ok (cur', mv) → namesUnique (topNames cur) = true →
    namesUnique (topNames cur') = true ∧
    (∀ m, m ≠ "Documents" → m ≠ "Media" → m ≠ "Other" →
      (getPath cur' [m] = getPath cur [m] ∨ getPath cur' [m] = none)) := by
  intro ns
  induction ns with
  | nil =>
    intro cur cur' acc mv h hu
    simp only [passFiles, Except.ok.injEq, Prod.mk.injEq] at h
    obtain ⟨h1, -⟩ := h
    subst h1
    exact ⟨hu, fun m _ _ _ => Or.inl rfl⟩
  | cons n0 rest ih =>
    intro cur cur' acc mv h hu
    cases hs : step1 cur n0 with
    | error e => simp [passFiles, hs] at h
    | ok pr =>
      obtain ⟨c2, rs⟩ := pr
      simp only [passFiles, hs] at h
      rcases step1_ok_inv cur c2 n0 rs hs with
        ⟨cs0, hgd, hceq, -⟩ | ⟨d2, cur1, hgf2, hmk, hmv, -⟩
      · subst hceq
        exact ih c2 cur' (acc ++ rs) mv h hu
      · obtain ⟨cs, hcur⟩ : ∃ cs, cur = .dir cs := by
          cases cur with
          | file d0 => simp [getPath] at hgf2
          | dir cs => exact ⟨cs, rfl⟩
        subst hcur
        rw [getPath_single] at hgf2
        obtain ⟨hframe, -, -, -, hgone⟩ :=
          step1_move_anatomy cs cur1 c2 n0 d2 _ _ hgf2 hmk hmv
        obtain ⟨hnone, hu2⟩ := hgone hu
        obtain ⟨hu', hstate'⟩ := ih c2 cur' (acc ++ rs) mv h hu2
        refine ⟨hu', ?_⟩
        intro m hD hM hO
        by_cases hm0 : m = n0
        · subst hm0
          rcases hstate' m hD hM hO with h1 | h1
          · right
            rw [h1, hnone]
          · right
            exact h1
        · have hpd : pathDisj (destRootOf n0) [m] = true := by
            obtain ⟨tl, hh⟩ := destRootOf_head n0
            rcases hh with hh | hh | hh <;>
              rw [hh] <;>
              exact pathDisj_cons_ne _ _ (fun h2 => by simp_all)
          have hfr := hframe [m] hpd (pathDisj_cons_ne _ _ (fun h2 => hm0 (Eq.symm h2)))
          rcases hstate' m hD hM hO with h1 | h1
          · left
            rw [h1, hfr]
          · right
            exact h1

theorem step1_err (cur : Entry) (n : String) (e : Err)
    (h : step1 cur n = .error e) (hpres : getPath cur [n] ≠ none) :
    e = .mkdirBlocked (destRootOf n) := by
  unfold step1 at h
  cases hg : getPath cur [n] with
  | none => exact absurd hg hpres
  | some x =>
    rw [hg] at h
    cases x with
    | dir cs => simp at h
    | file d =>
      obtain ⟨cs, hcur⟩ : ∃ cs, cur = .dir cs := by
        cases cur with
        | file d0 => simp [getPath] at hg
        | dir cs => exact ⟨cs, rfl⟩
      subst hcur
      rw [getPath_single] at hg
      cases hmk : mkdirParents (.dir cs) (destRootOf n) with
      | none =>
        simp only [hmk] at h
        injection h with h1
        exact h1.symm
      | some cur1 =>
        exfalso
        simp only [hmk] at h
        obtain ⟨dh, dt, hdr⟩ := destRootOf_cons n
        have hdh : dh ≠ n := by
          intro he
          exact mkdirParents_head_not_file cs dh dt cur1 (hdr ▸ hmk) d (he ▸ hg)
        obtain ⟨cs1, hcs1⟩ := mkdirParents_isDir _ _ _ hmk
        subst hcs1
        have hl1 : lookupChild cs1 n = some (.file d) := by
          have hfr := mkdirParents_frame (destRootOf n) (.dir cs) (.dir cs1) [n] hmk
            (by rw [hdr]; exact pathDisj_cons_ne _ _ hdh)
          rw [getPath_single, getPath_single] at hfr
          rw [hfr, hg]
        have hex := ensure_unique_path_free (.dir cs1) (destRootOf n) n
        obtain ⟨root1, hdet⟩ :=
          detach_of_get [n] (.dir cs1) (.file d) (by simp)
            (by rw [getPath_single]; exact hl1)
        obtain ⟨-, hroot1⟩ := detach_single_inv cs1 n root1 _ hdet
        subst hroot1
        obtain ⟨csd, hcsd⟩ := mkdirParents_ok _ _ _ hmk
        have hpd1 : pathDisj [n] (destRootOf n) = true := by
          rw [hdr]
          exact pathDisj_cons_ne _ _ (fun h2 => hdh (Eq.symm h2))
        have hgd : getPath (.dir (eraseChild cs1 n)) (destRootOf n) = some (.dir csd) := by
          rw [detach_frame [n] _ _ _ _ hdet hpd1]
          exact hcsd
        have hpd2 : pathDisj [n]
            (destRootOf n ++ [ensure_unique_path (.dir cs1) (destRootOf n) n]) = true := by
          rw [hdr]
          exact pathDisj_cons_ne _ _ (fun h2 => hdh (Eq.symm h2))
        have hfree : lookupChild csd (ensure_unique_path (.dir cs1) (destRootOf n) n) = none := by
          have hex2 : existsPath (.dir (eraseChild cs1 n))
              (destRootOf n ++ [ensure_unique_path (.dir cs1) (destRootOf n) n]) = false := by
            unfold existsPath at hex ⊢
            rw [detach_frame [n] _ _ _ _ hdet hpd2]
            exact hex
          unfold existsPath at hex2
          rw [getPath_append, hgd] at hex2
          simp only [Option.some_bind, getPath_single] at hex2
          cases hlf : lookupChild csd (ensure_unique_path (.dir cs1) (destRootOf n) n) with
          | none => rfl
          | some y =>
            rw [hlf] at hex2
            simp at hex2
        obtain ⟨root2, hatt⟩ :=
          attach_of_dir_free (destRootOf n) _ csd
            (ensure_unique_path (.dir cs1) (destRootOf n) n) (.file d) hgd hfree
        have hok : moveOp (.dir cs1) [n] (destRootOf n)
            (ensure_unique_path (.dir cs1) (destRootOf n) n) =
            .ok (root2, ([n],
              destRootOf n ++ [ensure_unique_path (.dir cs1) (destRootOf n) n])) := by
          unfold moveOp
          rw [hex]
          simp only [Bool.false_eq_true, if_false, hdet, hatt]
        rw [hok] at h
        simp [Except.map] at h

theorem passFiles_err : ∀ (ns : List String) (cur : Entry) (acc : List MoveRec) (e : Err),
    passFiles cur ns acc = .error e → namesUnique ns = true →
    (∀ n ∈ ns, getPath cur [n] ≠ none) →
    ∃ nm, e = .mkdirBlocked (destRootOf nm) := by
  intro ns
  induction ns with
  | nil =>
    intro cur acc e h hns hpres
    simp [passFiles] at h
  | cons n0 rest ih =>
    intro cur acc e h hns hpres
    simp only [List.map_cons, namesUnique, Bool.and_eq_true, Bool.not_eq_true'] at hns
    cases hs : step1 cur n0 with
    | error e2 =>
      simp only [passFiles, hs] at h
      injection h with h1
      subst h1
      exact ⟨n0, step1_err cur n0 e2 hs (hpres n0 (by simp))⟩
    | ok pr =>
      obtain ⟨c2, rs⟩ := pr
      simp only [passFiles, hs] at h
      rcases step1_ok_inv cur c2 n0 rs hs with
        ⟨cs0, hgd, hceq, -⟩ | ⟨d2, cur1, hgf2, hmk, hmv, -⟩
      · subst hceq
        exact ih _ (acc ++ rs) e h hns.2 (fun n hn => hpres n (by simp [hn]))
      · obtain ⟨cs, hcur⟩ : ∃ cs, cur = .dir cs := by
          cases cur with
          | file d0 => simp [getPath] at hgf2
          | dir cs => exact ⟨cs, rfl⟩
        subst hcur
        rw [getPath_single] at hgf2
        obtain ⟨-, -, hdirk, hfilek, -⟩ :=
          step1_move_anatomy cs cur1 c2 n0 d2 _ _ hgf2 hmk hmv
        refine ih c2 (acc ++ rs) e h hns.2 ?_
        intro n hn
        have hne : n ≠ n0 := by
          intro he
          subst he
          have hmem := (contains_iff_mem rest n).mpr hn
          rw [hns.1] at hmem
          exact absurd hmem (by simp)
        have hp := hpres n (by simp [hn])
        cases hgn : getPath (.dir cs) [n] with
        | none => exact absurd hgn hp
        | some x =>
          rw [getPath_single] at hgn
          cases x with
          | dir ds =>
            obtain ⟨ds', hc2⟩ := hdirk n ds hgn
            rw [hc2]
            simp
          | file dx =>
            have hc2 := hfilek n dx hne hgn
            rw [hc2]
            simp

end Organizer

namespace Organizer

/-! ### Legacy migration: one item -/

theorem stepLegacyItem_ok_inv (cur cur' : Entry) (k : String) (dd : List String) (i : String)
    (r : MoveRec) (h : stepLegacyItem cur k dd i = .ok (cur', r)) :
    ∃ x t, getPath cur [k, i] = some x ∧
      moveOp cur [k, i] dd t = .ok (cur', r) ∧ r = ([k, i], dd ++ [t]) := by
  unfold stepLegacyItem at h
  cases hg : getPath cur [k, i] with
  | none =>
    exfalso
    simp only [hg] at h
    obtain ⟨-, -, root1, x, hd, -⟩ := moveOp_ok_inv _ _ _ _ _ _ h
    have hgx := detach_get [k, i] cur root1 x hd
    rw [hg] at hgx
    exact absurd hgx (by simp)
  | some x =>
    cases x with
    | dir ds =>
      simp only [hg] at h
      obtain ⟨hrec, -, -⟩ := moveOp_ok_inv _ _ _ _ _ _ h
      exact ⟨.dir ds, ensure_unique_dir cur dd i, rfl, h, hrec⟩
    | file d =>
      simp only [hg] at h
      obtain ⟨hrec, -, -⟩ := moveOp_ok_inv _ _ _ _ _ _ h
      exact ⟨.file d, ensure_unique_path cur dd i, rfl, h, hrec⟩

theorem moveOp_src_present_ok (cur : Entry) (k i ddh : String) (ddt : List String)
    (x : Entry) (csd : List (String × Entry)) (t : String)
    (hg : getPath cur [k, i] = some x)
    (hdd : getPath cur (ddh :: ddt) = some (.dir csd))
    (hne : ddh ≠ k)
    (hfree : existsPath cur ((ddh :: ddt) ++ [t]) = false) :
    ∃ root2, moveOp cur [k, i] (ddh :: ddt) t = .ok (root2, ([k, i], (ddh :: ddt) ++ [t])) := by
  obtain ⟨root1, hdet⟩ := detach_of_get [k, i] cur x (by simp) hg
  have hpd : pathDisj [k, i] (ddh :: ddt) = true :=
    pathDisj_cons_ne _ _ (fun h2 => hne (Eq.symm h2))
  have hpd2 : pathDisj [k, i] ((ddh :: ddt) ++ [t]) = true :=
    pathDisj_cons_ne _ _ (fun h2 => hne (Eq.symm h2))
  have hgd : getPath root1 (ddh :: ddt) = some (.dir csd) := by
    rw [detach_frame _ _ _ _ _ hdet hpd]
    exact hdd
  have hfree2 : lookupChild csd t = none := by
    have hex2 : existsPath root1 ((ddh :: ddt) ++ [t]) = false := by
      unfold existsPath at hfree ⊢
      rw [detach_frame _ _ _ _ _ hdet hpd2]
      exact hfree
    unfold existsPath at hex2
    rw [getPath_append, hgd] at hex2
    simp only [Option.some_bind, getPath_single] at hex2
    cases hlf : lookupChild csd t with
    | none => rfl
    | some y =>
      rw [hlf] at hex2
      simp at hex2
  obtain ⟨root2, hatt⟩ := attach_of_dir_free (ddh :: ddt) root1 csd t x hgd hfree2
  refine ⟨root2, ?_⟩
  unfold moveOp
  rw [hfree]
  simp only [Bool.false_eq_true, if_false, hdet, hatt]

theorem stepLegacyItem_no_err (cur : Entry) (k ddh : String) (ddt : List String)
    (i : String) (csd : List (String × Entry)) (e : Err)
    (hk : getPath cur [k, i] ≠ none)
    (hdd : getPath cur (ddh :: ddt) = some (.dir csd))
    (hne : ddh ≠ k) :
    stepLegacyItem cur k (ddh :: ddt) i ≠ .error e := by
  intro h
  unfold stepLegacyItem at h
  cases hg : getPath cur [k, i] with
  | none => exact hk hg
  | some x =>
    cases x with
    | dir ds =>
      simp only [hg] at h
      obtain ⟨root2, hok⟩ := moveOp_src_present_ok cur k i ddh ddt _ csd _ hg hdd hne
        (ensure_unique_dir_free cur (ddh :: ddt) i)
      rw [hok] at h
      simp at h
    | file d =>
      simp only [hg] at h
      obtain ⟨root2, hok⟩ := moveOp_src_present_ok cur k i ddh ddt _ csd _ hg hdd hne
        (ensure_unique_path_free cur (ddh :: ddt) i)
      rw [hok] at h
      simp at h

theorem stepLegacyItem_ok_facts (cur cur' : Entry) (k ddh : String) (ddt : List String)
    (i : String) (r : MoveRec) (csd : List (String × Entry))
    (h : stepLegacyItem cur k (ddh :: ddt) i = .ok (cur', r))
    (hne : ddh ≠ k)
    (hdd : getPath cur (ddh :: ddt) = some (.dir csd)) :
    (∃ t, r = ([k, i], (ddh :: ddt) ++ [t])) ∧
    filesOf cur' = filesOf cur ∧
    (∀ q, pathDisj [k, i] q = true → pathDisj (ddh :: ddt) q = true →
        getPath cur' q = getPath cur q) ∧
    (∃ csd', getPath cur' (ddh :: ddt) = some (.dir csd')) := by
  obtain ⟨x, t, hg, hmv, hrec⟩ := stepLegacyItem_ok_inv cur cur' k (ddh :: ddt) i r h
  obtain ⟨-, hex, root1, x2, hd, ha⟩ := moveOp_ok_inv _ _ _ _ _ _ hmv
  refine ⟨⟨t, hrec⟩, moveOp_files _ _ _ _ _ _ hmv, ?_, ?_⟩
  · intro q h1 h2
    exact moveOp_frame _ _ _ _ _ _ q hmv h1 (pathDisj_append_left _ _ _ h2)
  · have hpd : pathDisj [k, i] (ddh :: ddt) = true :=
      pathDisj_cons_ne _ _ (fun h2 => hne (Eq.symm h2))
    have hgd : getPath root1 (ddh :: ddt) = some (.dir csd) := by
      rw [detach_frame _ _ _ _ _ hd hpd]
      exact hdd
    exact ⟨csd ++ [(t, x2)], attach_get_dir _ _ _ _ _ _ ha hgd⟩

end Organizer

namespace Organizer

/-! ### Legacy migration: the inner loop -/

theorem legacyItems_facts (k ddh : String) (ddt : List String) :
    ∀ (js : List String) (cur cur' : Entry) (acc mv : List MoveRec)
      (csd : List (String × Entry)),
    legacyItems k (ddh :: ddt) cur js acc = .ok (cur', mv) →
    ddh ≠ k →
    getPath cur (ddh :: ddt) = some (.dir csd) →
    (∃ tail, mv = acc ++ tail ∧
       ∀ r ∈ tail, ∃ i t, i ∈ js ∧ r = ([k, i], (ddh :: ddt) ++ [t])) ∧
    filesOf cur' = filesOf cur ∧
    (∀ q, pathDisj [k] q = true → pathDisj (ddh :: ddt) q = true →
        getPath cur' q = getPath cur q) ∧
    (∃ csd', getPath cur' (ddh :: ddt) = some (.dir csd')) := by
  intro js
  induction js with
  | nil =>
    intro cur cur' acc mv csd h hne hdd
    simp only [legacyItems, Except.ok.injEq, Prod.mk.injEq] at h
    obtain ⟨h1, h2⟩ := h
    subst h1
    subst h2
    exact ⟨⟨[], by simp, by simp⟩, rfl, fun q _ _ => rfl, ⟨csd, hdd⟩⟩
  | cons i0 rest ih =>
    intro cur cur' acc mv csd h hne hdd
    cases hs : stepLegacyItem cur k (ddh :: ddt) i0 with
    | error e => simp [legacyItems, hs] at h
    | ok pr =>
      obtain ⟨c2, r⟩ := pr
      simp only [legacyItems, hs] at h
      obtain ⟨⟨t0, hrec⟩, hfi, hfr, ⟨csd2, hdd2⟩⟩ :=
        stepLegacyItem_ok_facts cur c2 k ddh ddt i0 r csd hs hne hdd
      obtain ⟨⟨tail, ht, hshape⟩, hfi2, hfr2, hdd3⟩ :=
        ih c2 cur' (acc ++ [r]) mv csd2 h hne hdd2
      refine ⟨⟨r :: tail, by rw [ht]; simp, ?_⟩, by rw [hfi2, hfi], ?_, hdd3⟩
      · intro r2 hr2
        rcases List.mem_cons.mp hr2 with rfl | hr3
        · exact ⟨i0, t0, by simp, hrec⟩
        · obtain ⟨i2, t2, hi2, hr4⟩ := hshape r2 hr3
          exact ⟨i2, t2, by simp [hi2], hr4⟩
      · intro q h1 h2
        rw [hfr2 q h1 h2, hfr q (pathDisj_append_left [k] q [i0] h1) h2]

theorem legacyItems_records (k ddh : String) (ddt : List String) :
    ∀ (js : List String) (cur cur' : Entry) (acc mv : List MoveRec)
      (csd : List (String × Entry)),
    legacyItems k (ddh :: ddt) cur js acc = .ok (cur', mv) →
    ddh ≠ k →
    getPath cur (ddh :: ddt) = some (.dir csd) →
    namesUnique js = true →
    (∀ i ∈ js, getPath cur [k, i] ≠ none) →
    ∀ i ∈ js, ∃ t, ([k, i], (ddh :: ddt) ++ [t]) ∈ mv := by
  intro js
  induction js with
  | nil =>
    intro cur cur' acc mv csd h hne hdd hnu hpres i hi
    simp at hi
  | cons i0 rest ih =>
    intro cur cur' acc mv csd h hne hdd hnu hpres i hi
    cases hs : stepLegacyItem cur k (ddh :: ddt) i0 with
    | error e => simp [legacyItems, hs] at h
    | ok pr =>
      obtain ⟨c2, r⟩ := pr
      simp only [legacyItems, hs] at h
      simp only [namesUnique, Bool.and_eq_true, Bool.not_eq_true'] at hnu
      obtain ⟨⟨t0, hrec⟩, -, hfr, ⟨csd2, hdd2⟩⟩ :=
        stepLegacyItem_ok_facts cur c2 k ddh ddt i0 r csd hs hne hdd
      rcases List.mem_cons.mp hi with rfl | hi2
      · obtain ⟨⟨tail, ht, -⟩, -, -, -⟩ :=
          legacyItems_facts k ddh ddt rest c2 cur' (acc ++ [r]) mv csd2 h hne hdd2
        refine ⟨t0, ?_⟩
        rw [ht, hrec]
        simp
      · have hpres2 : ∀ j ∈ rest, getPath c2 [k, j] ≠ none := by
          intro j hj
          have hij : i0 ≠ j := by
            intro he
            subst he
            have hmem := (contains_iff_mem rest i0).mpr hj
            rw [hnu.1] at hmem
            exact absurd hmem (by simp)
          have hpd1 : pathDisj [k, i0] [k, j] = true := by
            rw [pathDisj_cons_eq]
            exact pathDisj_cons_ne _ _ hij
          have hpd2 : pathDisj (ddh :: ddt) [k, j] = true :=
            pathDisj_cons_ne _ _ hne
          rw [hfr [k, j] hpd1 hpd2]
          exact hpres j (by simp [hj])
        exact ih c2 cur' (acc ++ [r]) mv csd2 h hne hdd2 hnu.2 hpres2 i hi2

theorem legacyItems_no_err (k ddh : String) (ddt : List String) :
    ∀ (js : List String) (cur : Entry) (acc : List MoveRec) (e : Err)
      (csd : List (String × Entry)),
    legacyItems k (ddh :: ddt) cur js acc = .error e →
    ddh ≠ k →
    getPath cur (ddh :: ddt) = some (.dir csd) →
    namesUnique js = true →
    (∀ i ∈ js, getPath cur [k, i] ≠ none) → False := by
  intro js
  induction js with
  | nil =>
    intro cur acc e csd h _ _ _ _
    simp [legacyItems] at h
  | cons i0 rest ih =>
    intro cur acc e csd h hne hdd hnu hpres
    cases hs : stepLegacyItem cur k (ddh :: ddt) i0 with
    | error e2 =>
      exact stepLegacyItem_no_err cur k ddh ddt i0 csd e2
        (hpres i0 (by simp)) hdd hne hs
    | ok pr =>
      obtain ⟨c2, r⟩ := pr
      simp only [legacyItems, hs] at h
      simp only [namesUnique, Bool.and_eq_true, Bool.not_eq_true'] at hnu
      obtain ⟨-, -, hfr, ⟨csd2, hdd2⟩⟩ :=
        stepLegacyItem_ok_facts cur c2 k ddh ddt i0 r csd hs hne hdd
      have hpres2 : ∀ j ∈ rest, getPath c2 [k, j] ≠ none := by
        intro j hj
        have hij : i0 ≠ j := by
          intro he
          subst he
          have hmem := (contains_iff_mem rest i0).mpr hj
          rw [hnu.1] at hmem
          exact absurd hmem (by simp)
        have hpd1 : pathDisj [k, i0] [k, j] = true := by
          rw [pathDisj_cons_eq]
          exact pathDisj_cons_ne _ _ hij
        have hpd2 : pathDisj (ddh :: ddt) [k, j] = true :=
          pathDisj_cons_ne _ _ hne
        rw [hfr [k, j] hpd1 hpd2]
        exact hpres j (by simp [hj])
      exact ih c2 (acc ++ [r]) e csd2 h hne hdd2 hnu.2 hpres2

end Organizer

namespace Organizer

/-! ### Legacy migration: one remap pair -/

theorem lookup_mem_getPath_two (cs2 : List (String × Entry)) (cur : Entry) (k i : String)
    (hk : getPath cur [k] = some (.dir cs2)) (hi : i ∈ cs2.map Prod.fst) :
    getPath cur [k, i] ≠ none := by
  have h2 : getPath cur ([k] ++ [i]) = (getPath cur [k]).bind (fun x => getPath x [i]) :=
    getPath_append cur [k] [i]
  show getPath cur ([k] ++ [i]) ≠ none
  rw [h2, hk]
  simp only [Option.some_bind, getPath_single]
  have := lookupChild_isSome_of_mem hi
  cases hl : lookupChild cs2 i with
  | none => rw [hl] at this; simp at this
  | some c => simp

theorem stepLegacy_facts (cur cur' : Entry) (acc mv : List MoveRec) (kv : String × String)
    (X : String)
    (h : stepLegacy cur acc kv = .ok (cur', mv))
    (hsplit : splitPath kv.2 = ["Documents", X])
    (hkD : kv.1 ≠ "Documents") :
    (∃ tail, mv = acc ++ tail ∧
       ∀ r ∈ tail, ∃ i t, r = ([kv.1, i], ["Documents", X, t])) ∧
    filesOf cur' = filesOf cur ∧
    (∀ q, pathDisj [kv.1] q = true → pathDisj ["Documents"] q = true →
        getPath cur' q = getPath cur q) := by
  unfold stepLegacy at h
  cases hg : getPath cur [kv.1] with
  | none =>
    simp only [hg, Except.ok.injEq, Prod.mk.injEq] at h
    obtain ⟨h1, h2⟩ := h
    subst h1
    subst h2
    exact ⟨⟨[], by simp, by simp⟩, rfl, fun q _ _ => rfl⟩
  | some x =>
    cases x with
    | file d =>
      simp only [hg, Except.ok.injEq, Prod.mk.injEq] at h
      obtain ⟨h1, h2⟩ := h
      subst h1
      subst h2
      exact ⟨⟨[], by simp, by simp⟩, rfl, fun q _ _ => rfl⟩
    | dir csk =>
      simp only [hg] at h
      rw [hsplit] at h
      cases hmk : mkdirParents cur ["Documents", X] with
      | none => simp [hmk] at h
      | some cur1 =>
        simp only [hmk] at h
        cases hli : legacyItems kv.1 ["Documents", X] cur1
            ((childrenAt cur1 [kv.1]).map Prod.fst) acc with
        | error e => simp [hli] at h
        | ok pr =>
          obtain ⟨c2, acc2⟩ := pr
          simp only [hli, Except.ok.injEq, Prod.mk.injEq] at h
          obtain ⟨h1, h2⟩ := h
          subst h1
          subst h2
          obtain ⟨csd, hcsd⟩ := mkdirParents_ok _ _ _ hmk
          have hneD : "Documents" ≠ kv.1 := fun h2 => hkD (Eq.symm h2)
          obtain ⟨⟨tail, ht, hshape⟩, hfi, hfr, -⟩ :=
            legacyItems_facts kv.1 "Documents" [X]
              ((childrenAt cur1 [kv.1]).map Prod.fst) cur1 c2 acc acc2 csd hli hneD hcsd
          refine ⟨⟨tail, ht, ?_⟩, ?_, ?_⟩
          · intro r hr
            obtain ⟨i, t, -, hr2⟩ := hshape r hr
            exact ⟨i, t, hr2⟩
          · rw [rmdirIfEmpty_files, hfi, mkdirParents_files _ _ _ hmk]
          · intro q h1 h2
            have hpdd : pathDisj ["Documents", X] q = true :=
              pathDisj_append_left ["Documents"] q [X] h2
            rw [rmdirIfEmpty_frame c2 [kv.1] q h1, hfr q h1 hpdd,
              mkdirParents_frame _ _ _ q hmk hpdd]

theorem stepLegacy_err (cur : Entry) (acc : List MoveRec) (kv : String × String) (X : String)
    (e : Err)
    (h : stepLegacy cur acc kv = .error e)
    (hsplit : splitPath kv.2 = ["Documents", X])
    (hkD : kv.1 ≠ "Documents")
    (hwfk : ∀ csk, getPath cur [kv.1] = some (.dir csk) →
        namesUnique (csk.map Prod.fst) = true) :
    e = .mkdirBlocked ["Documents", X] := by
  unfold stepLegacy at h
  cases hg : getPath cur [kv.1] with
  | none => simp [hg] at h
  | some x =>
    cases x with
    | file d => simp [hg] at h
    | dir csk =>
      simp only [hg] at h
      rw [hsplit] at h
      cases hmk : mkdirParents cur ["Documents", X] with
      | none =>
        simp only [hmk] at h
        injection h with h1
        exact h1.symm
      | some cur1 =>
        exfalso
        simp only [hmk] at h
        cases hli : legacyItems kv.1 ["Documents", X] cur1
            ((childrenAt cur1 [kv.1]).map Prod.fst) acc with
        | ok pr =>
          obtain ⟨c2, acc2⟩ := pr
          simp [hli] at h
        | error e2 =>
          obtain ⟨csd, hcsd⟩ := mkdirParents_ok _ _ _ hmk
          have hneD : "Documents" ≠ kv.1 := fun h2 => hkD (Eq.symm h2)
          have hpdk : pathDisj ["Documents", X] [kv.1] = true :=
            pathDisj_cons_ne _ _ hneD
          have hk1 : getPath cur1 [kv.1] = some (.dir csk) := by
            rw [mkdirParents_frame _ _ _ [kv.1] hmk hpdk]
            exact hg
          have hch : childrenAt cur1 [kv.1] = csk := by
            unfold childrenAt
            rw [hk1]
          have hnu : namesUnique ((childrenAt cur1 [kv.1]).map Prod.fst) = true := by
            rw [hch]
            exact hwfk csk hg
          have hpres : ∀ i ∈ (childrenAt cur1 [kv.1]).map Prod.fst,
              getPath cur1 [kv.1, i] ≠ none := by
            intro i hi
            rw [hch] at hi
            exact lookup_mem_getPath_two csk cur1 kv.1 i hk1 hi
          exact legacyItems_no_err kv.1 "Documents" [X]
            ((childrenAt cur1 [kv.1]).map Prod.fst) cur1 acc e2 csd hli hneD hcsd hnu hpres

theorem stepLegacy_records (cur cur' : Entry) (acc mv : List MoveRec) (kv : String × String)
    (X : String) (csk : List (String × Entry))
    (h : stepLegacy cur acc kv = .ok (cur', mv))
    (hsplit : splitPath kv.2 = ["Documents", X])
    (hkD : kv.1 ≠ "Documents")
    (hg : getPath cur [kv.1] = some (.dir csk))
    (hnu : namesUnique (csk.map Prod.fst) = true) :
    ∀ i ∈ csk.map Prod.fst, ∃ t, ([kv.1, i], ["Documents", X, t]) ∈ mv := by
  intro i hi
  unfold stepLegacy at h
  rw [hg] at h
  simp only at h
  rw [hsplit] at h
  cases hmk : mkdirParents cur ["Documents", X] with
  | none => simp [hmk] at h
  | some cur1 =>
    simp only [hmk] at h
    cases hli : legacyItems kv.1 ["Documents", X] cur1
        ((childrenAt cur1 [kv.1]).map Prod.fst) acc with
    | error e => simp [hli] at h
    | ok pr =>
      obtain ⟨c2, acc2⟩ := pr
      simp only [hli, Except.ok.injEq, Prod.mk.injEq] at h
      obtain ⟨-, h2⟩ := h
      subst h2
      obtain ⟨csd, hcsd⟩ := mkdirParents_ok _ _ _ hmk
      have hneD : "Documents" ≠ kv.1 := fun h2 => hkD (Eq.symm h2)
      have hpdk : pathDisj ["Documents", X] [kv.1] = true :=
        pathDisj_cons_ne _ _ hneD
      have hk1 : getPath cur1 [kv.1] = some (.dir csk) := by
        rw [mkdirParents_frame _ _ _ [kv.1] hmk hpdk]
        exact hg
      have hch : childrenAt cur1 [kv.1] = csk := by
        unfold childrenAt
        rw [hk1]
      have hpres : ∀ j ∈ (childrenAt cur1 [kv.1]).map Prod.fst,
          getPath cur1 [kv.1, j] ≠ none := by
        intro j hj
        rw [hch] at hj
        exact lookup_mem_getPath_two csk cur1 kv.1 j hk1 hj
      have hrec := legacyItems_records kv.1 "Documents" [X]
        ((childrenAt cur1 [kv.1]).map Prod.fst) cur1 c2 acc acc2 csd hli hneD hcsd
        (by rw [hch]; exact hnu) hpres i (by rw [hch]; exact hi)
      exact hrec

end Organizer

namespace Organizer

/-! ### Legacy migration: the remap fold -/

theorem relocGo_facts : ∀ (kvs : List (String × String)) (cur cur' : Entry)
    (acc mv : List MoveRec),
    relocGo cur acc kvs = .ok (cur', mv) →
    (∀ kv ∈ kvs, kv.1 ≠ "Documents" ∧ ∃ X, splitPath kv.2 = ["Documents", X]) →
    (∃ tail, mv = acc ++ tail ∧
       ∀ r ∈ tail, ∃ kv, kv ∈ kvs ∧ ∃ i X t, r = ([kv.1, i], ["Documents", X, t])) ∧
    filesOf cur' = filesOf cur ∧
    (∀ q, (∀ kv ∈ kvs, pathDisj [kv.1] q = true) → pathDisj ["Documents"] q = true →
        getPath cur' q = getPath cur q) := by
  intro kvs
  induction kvs with
  | nil =>
    intro cur cur' acc mv h _
    simp only [relocGo, Except.ok.injEq, Prod.mk.injEq] at h
    obtain ⟨h1, h2⟩ := h
    subst h1
    subst h2
    exact ⟨⟨[], by simp, by simp⟩, rfl, fun q _ _ => rfl⟩
  | cons kv0 rest ih =>
    intro cur cur' acc mv h hok
    cases hs : stepLegacy cur acc kv0 with
    | error e => simp [relocGo, hs] at h
    | ok pr =>
      obtain ⟨c2, a2⟩ := pr
      simp only [relocGo, hs] at h
      obtain ⟨hD0, X0, hX0⟩ := hok kv0 (by simp)
      obtain ⟨⟨tail0, ht0, hsh0⟩, hfi0, hfr0⟩ :=
        stepLegacy_facts cur c2 acc a2 kv0 X0 hs hX0 hD0
      obtain ⟨⟨tail, ht, hsh⟩, hfi, hfr⟩ :=
        ih c2 cur' a2 mv h (fun kv hkv => hok kv (by simp [hkv]))
      refine ⟨⟨tail0 ++ tail, by rw [ht, ht0, List.append_assoc], ?_⟩,
        by rw [hfi, hfi0], ?_⟩
      · intro r hr
        rcases List.mem_append.mp hr with hr1 | hr2
        · obtain ⟨i, t, hr3⟩ := hsh0 r hr1
          exact ⟨kv0, by simp, i, X0, t, hr3⟩
        · obtain ⟨kv2, hkv2, i, X2, t, hr3⟩ := hsh r hr2
          exact ⟨kv2, by simp [hkv2], i, X2, t, hr3⟩
      · intro q hq1 hq2
        rw [hfr q (fun kv hkv => hq1 kv (by simp [hkv])) hq2,
          hfr0 q (hq1 kv0 (by simp)) hq2]

theorem relocGo_err : ∀ (kvs : List (String × String)) (cur : Entry)
    (acc : List MoveRec) (e : Err),
    relocGo cur acc kvs = .error e →
    (∀ kv ∈ kvs, kv.1 ≠ "Documents" ∧ ∃ X, splitPath kv.2 = ["Documents", X]) →
    List.Pairwise (fun a b => a.1 ≠ b.1) kvs →
    (∀ kv ∈ kvs, ∀ csk, getPath cur [kv.1] = some (.dir csk) →
        namesUnique (csk.map Prod.fst) = true) →
    ∃ p, e = .mkdirBlocked p := by
  intro kvs
  induction kvs with
  | nil =>
    intro cur acc e h _ _ _
    simp [relocGo] at h
  | cons kv0 rest ih =>
    intro cur acc e h hok hpw hwfk
    obtain ⟨hD0, X0, hX0⟩ := hok kv0 (by simp)
    cases hs : stepLegacy cur acc kv0 with
    | error e2 =>
      simp only [relocGo, hs] at h
      injection h with h1
      subst h1
      exact ⟨["Documents", X0],
        stepLegacy_err cur acc kv0 X0 e2 hs hX0 hD0 (hwfk kv0 (by simp))⟩
    | ok pr =>
      obtain ⟨c2, a2⟩ := pr
      simp only [relocGo, hs] at h
      obtain ⟨-, -, hfr0⟩ := stepLegacy_facts cur c2 acc a2 kv0 X0 hs hX0 hD0
      rw [List.pairwise_cons] at hpw
      refine ih c2 a2 e h (fun kv hkv => hok kv (by simp [hkv])) hpw.2 ?_
      intro kv hkv csk hg
      have hne1 : pathDisj [kv0.1] [kv.1] = true :=
        pathDisj_cons_ne _ _ (hpw.1 kv hkv)
      have hne2 : pathDisj ["Documents"] [kv.1] = true :=
        pathDisj_cons_ne _ _ (fun h2 => (hok kv (by simp [hkv])).1 (Eq.symm h2))
      rw [hfr0 [kv.1] hne1 hne2] at hg
      exact hwfk kv (by simp [hkv]) csk hg

theorem relocGo_records : ∀ (kvs : List (String × String)) (cur cur' : Entry)
    (acc mv : List MoveRec),
    relocGo cur acc kvs = .ok (cur', mv) →
    (∀ kv ∈ kvs, kv.1 ≠ "Documents" ∧ ∃ X, splitPath kv.2 = ["Documents", X]) →
    List.Pairwise (fun a b => a.1 ≠ b.1) kvs →
    (∀ kv ∈ kvs, ∀ csk, getPath cur [kv.1] = some (.dir csk) →
        namesUnique (csk.map Prod.fst) = true) →
    ∀ kv ∈ kvs, ∀ csk, getPath cur [kv.1] = some (.dir csk) →
      ∀ i ∈ csk.map Prod.fst, ∃ t X, splitPath kv.2 = ["Documents", X] ∧
        ([kv.1, i], ["Documents", X, t]) ∈ mv := by
  intro kvs
  induction kvs with
  | nil =>
    intro cur cur' acc mv h _ _ _ kv hkv
    simp at hkv
  | cons kv0 rest ih =>
    intro cur cur' acc mv h hok hpw hwfk kv hkv csk hg i hi
    obtain ⟨hD0, X0, hX0⟩ := hok kv0 (by simp)
    cases hs : stepLegacy cur acc kv0 with
    | error e => simp [relocGo, hs] at h
    | ok pr =>
      obtain ⟨c2, a2⟩ := pr
      simp only [relocGo, hs] at h
      obtain ⟨-, -, hfr0⟩ := stepLegacy_facts cur c2 acc a2 kv0 X0 hs hX0 hD0
      rw [List.pairwise_cons] at hpw
      rcases List.mem_cons.mp hkv with rfl | hkv2
      · obtain ⟨t, hmem⟩ := stepLegacy_records cur c2 acc a2 kv X0 csk hs hX0 hD0 hg
          (hwfk kv (by simp) csk hg) i hi
        obtain ⟨⟨tail, ht, -⟩, -, -⟩ :=
          relocGo_facts rest c2 cur' a2 mv h (fun kv2 hkv2 => hok kv2 (by simp [hkv2]))
        refine ⟨t, X0, hX0, ?_⟩
        rw [ht]
        exact List.mem_append_left _ hmem
      · have hne1 : pathDisj [kv0.1] [kv.1] = true :=
          pathDisj_cons_ne _ _ (hpw.1 kv hkv2)
        have hne2 : pathDisj ["Documents"] [kv.1] = true :=
          pathDisj_cons_ne _ _ (fun h2 => (hok kv (by simp [hkv2])).1 (Eq.symm h2))
        have hg2 : getPath c2 [kv.1] = some (.dir csk) := by
          rw [hfr0 [kv.1] hne1 hne2]
          exact hg
        refine ih c2 cur' a2 mv h (fun kv2 hkv3 => hok kv2 (by simp [hkv3])) hpw.2 ?_
          kv hkv2 csk hg2 i hi
        intro kv2 hkv3 csk2 hg3
        have hne1' : pathDisj [kv0.1] [kv2.1] = true :=
          pathDisj_cons_ne _ _ (hpw.1 kv2 hkv3)
        have hne2' : pathDisj ["Documents"] [kv2.1] = true :=
          pathDisj_cons_ne _ _ (fun h2 => (hok kv2 (by simp [hkv3])).1 (Eq.symm h2))
        rw [hfr0 [kv2.1] hne1' hne2'] at hg3
        exact hwfk kv2 (by simp [hkv3]) csk2 hg3

end Organizer

namespace Organizer

/-! ### Well-formedness and table facts -/

theorem wfChildren_lookup : ∀ (cs : List (String × Entry)) (n : String) (c : Entry),
    wfChildren cs = true → lookupChild cs n = some c → wfEntry c = true := by
  intro cs
  induction cs with
  | nil => intro n c _ h; simp [lookupChild] at h
  | cons c0 rest ih =>
    intro n c hwf h
    obtain ⟨cn, ce⟩ := c0
    simp only [wfChildren, Bool.and_eq_true] at hwf
    by_cases hc : cn = n
    · simp only [lookupChild, if_pos hc] at h
      injection h with h1
      subst h1
      exact hwf.1
    · simp only [lookupChild, if_neg hc] at h
      exact ih n c hwf.2 h

theorem wf_getPath : ∀ (p : List String) (e x : Entry),
    wfEntry e = true → getPath e p = some x → wfEntry x = true := by
  intro p
  induction p with
  | nil =>
    intro e x hwf h
    simp only [getPath, Option.some.injEq] at h
    rw [← h]
    exact hwf
  | cons n rest ih =>
    intro e x hwf h
    cases e with
    | file d => simp [getPath] at h
    | dir cs =>
      cases hl : lookupChild cs n with
      | none => simp [getPath, hl] at h
      | some c =>
        simp only [getPath, hl] at h
        simp only [wfEntry, Bool.and_eq_true] at hwf
        exact ih c x (wfChildren_lookup cs n c hwf.2 hl) h

theorem wfEntry_dir_names (cs : List (String × Entry)) (h : wfEntry (.dir cs) = true) :
    namesUnique (cs.map Prod.fst) = true := by
  simp only [wfEntry, Bool.and_eq_true] at h
  exact h.1

theorem legacy_kvOk : ∀ kv ∈ LEGACY_FOLDER_REMAP,
    kv.1 ≠ "Documents" ∧ ∃ X, splitPath kv.2 = ["Documents", X] := by
  intro kv hkv
  simp only [LEGACY_FOLDER_REMAP, List.mem_cons, List.not_mem_nil, or_false] at hkv
  rcases hkv with rfl | rfl | rfl | rfl
  · exact ⟨by decide, ⟨"Excel", rfl⟩⟩
  · exact ⟨by decide, ⟨"Word", rfl⟩⟩
  · exact ⟨by decide, ⟨"PDF", rfl⟩⟩
  · exact ⟨by decide, ⟨"Text", rfl⟩⟩

theorem legacy_pairwise : List.Pairwise (fun a b => a.1 ≠ b.1) LEGACY_FOLDER_REMAP := by
  decide

theorem legacy_keys : ∀ kv ∈ LEGACY_FOLDER_REMAP,
    kv.1 = "Excel" ∨ kv.1 = "Word" ∨ kv.1 = "PDF" ∨ kv.1 = "Text" := by
  intro kv hkv
  simp only [LEGACY_FOLDER_REMAP, List.mem_cons, List.not_mem_nil, or_false] at hkv
  rcases hkv with rfl | rfl | rfl | rfl
  · exact Or.inl rfl
  · exact Or.inr (Or.inl rfl)
  · exact Or.inr (Or.inr (Or.inl rfl))
  · exact Or.inr (Or.inr (Or.inr rfl))

/-! ### The full organizer run -/

theorem organize_ok_inv (root root' : Entry) (mv : List MoveRec)
    (h : organize_folder root = .ok (root', mv)) :
    ∃ cs c1 mv1, root = .dir cs ∧ passFiles root (cs.map Prod.fst) [] = .ok (c1, mv1) ∧
      relocGo c1 mv1 LEGACY_FOLDER_REMAP = .ok (root', mv) := by
  unfold organize_folder at h
  cases root with
  | file d => simp at h
  | dir cs =>
    cases hp : passFiles (.dir cs) (cs.map Prod.fst) [] with
    | error e => simp [hp] at h
    | ok pr =>
      obtain ⟨c1, mv1⟩ := pr
      simp only [hp] at h
      exact ⟨cs, c1, mv1, rfl, hp, h⟩

theorem organize_files (root : Entry) (out : Entry × List MoveRec)
    (h : organize_folder root = .ok out) : filesOf out.1 = filesOf root := by
  obtain ⟨root', mv⟩ := out
  obtain ⟨cs, c1, mv1, hroot, hp, hr⟩ := organize_ok_inv root root' mv h
  subst hroot
  obtain ⟨-, hfi, -, -⟩ := passFiles_facts _ _ _ _ _ hp
  obtain ⟨-, hfi2, -⟩ := relocGo_facts _ _ _ _ _ hr legacy_kvOk
  show filesOf root' = filesOf (.dir cs)
  rw [hfi2, hfi]

theorem organize_shape (root root' : Entry) (mv : List MoveRec)
    (h : organize_folder root = .ok (root', mv)) :
    ∀ r ∈ mv, (∃ n t, r = ([n], destRootOf n ++ [t])) ∨
      (∃ kv, kv ∈ LEGACY_FOLDER_REMAP ∧ ∃ i X t, r = ([kv.1, i], ["Documents", X, t])) := by
  obtain ⟨cs, c1, mv1, hroot, hp, hr⟩ := organize_ok_inv root root' mv h
  obtain ⟨⟨tail1, ht1, hsh1, -⟩, -, -, -⟩ := passFiles_facts _ _ _ _ _ hp
  obtain ⟨⟨tail2, ht2, hsh2⟩, -, -⟩ := relocGo_facts _ _ _ _ _ hr legacy_kvOk
  intro r hr2
  rw [ht2, ht1] at hr2
  rcases List.mem_append.mp hr2 with hr3 | hr3
  · rw [List.nil_append] at hr3
    obtain ⟨n, t, -, hrs⟩ := hsh1 r hr3
    exact Or.inl ⟨n, t, hrs⟩
  · obtain ⟨kv, hkv, i, X, t, hrs⟩ := hsh2 r hr3
    exact Or.inr ⟨kv, hkv, i, X, t, hrs⟩

theorem organize_records (cs : List (String × Entry)) (root' : Entry) (mv : List MoveRec)
    (hwf : wfEntry (.dir cs) = true)
    (h : organize_folder (.dir cs) = .ok (root', mv)) :
    ∀ n d, lookupChild cs n = some (.file d) →
      ∃ t, ([n], destRootOf n ++ [t]) ∈ mv := by
  obtain ⟨cs2, c1, mv1, hroot, hp, hr⟩ := organize_ok_inv _ root' mv h
  have hcs : cs2 = cs := by injection hroot with h1; rw [h1]
  rw [hcs] at hp
  intro n d hl
  have hmem : n ∈ cs.map Prod.fst := lookupChild_isSome_mem (by simp [hl])
  obtain ⟨t, hrec⟩ := passFiles_records _ _ _ _ _ hp (wfEntry_dir_names cs hwf) n hmem d
    (by rw [getPath_single]; exact hl)
  obtain ⟨⟨tail2, ht2, -⟩, -, -⟩ := relocGo_facts _ _ _ _ _ hr legacy_kvOk
  refine ⟨t, ?_⟩
  rw [ht2]
  exact List.mem_append_left _ hrec

theorem organize_err (root : Entry) (e : Err) (hwf : wfEntry root = true)
    (h : organize_folder root = .error e) :
    e = .notADir ∨ ∃ p, e = .mkdirBlocked p := by
  unfold organize_folder at h
  cases root with
  | file d =>
    left
    injection h with h1
    exact h1.symm
  | dir cs =>
    right
    cases hp : passFiles (.dir cs) (cs.map Prod.fst) [] with
    | error e2 =>
      simp only [hp] at h
      injection h with h1
      subst h1
      obtain ⟨nm, hnm⟩ := passFiles_err _ _ _ _ hp (wfEntry_dir_names cs hwf)
        (fun n hn => by
          rw [getPath_single]
          have := lookupChild_isSome_of_mem hn
          cases hl : lookupChild cs n with
          | none => rw [hl] at this; simp at this
          | some c => simp)
      exact ⟨destRootOf nm, hnm⟩
    | ok pr =>
      obtain ⟨c1, mv1⟩ := pr
      simp only [hp] at h
      obtain ⟨hu1, hstate⟩ := passFiles_topstate _ _ _ _ _ hp (by
        show namesUnique (topNames (.dir cs)) = true
        exact wfEntry_dir_names cs hwf)
      refine relocGo_err _ _ _ _ h legacy_kvOk legacy_pairwise ?_
      intro kv hkv csk hg
      have hkey := legacy_keys kv hkv
      have hD : kv.1 ≠ "Documents" := by rcases hkey with h1 | h1 | h1 | h1 <;> simp [h1]
      have hM : kv.1 ≠ "Media" := by rcases hkey with h1 | h1 | h1 | h1 <;> simp [h1]
      have hO : kv.1 ≠ "Other" := by rcases hkey with h1 | h1 | h1 | h1 <;> simp [h1]
      rcases hstate kv.1 hD hM hO with h1 | h1
      · rw [h1] at hg
        have hwfsub := wf_getPath [kv.1] (.dir cs) (.dir csk) hwf hg
        exact wfEntry_dir_names csk hwfsub
      · rw [h1] at hg
        exact absurd hg (by simp)

end Organizer

namespace Organizer

/-! ### No move ever targets an existing path -/

theorem moveOp_no_overwrite (root : Entry) (src dd : List String) (name : String)
    (p : List String) (hfree : existsPath root (dd ++ [name]) = false) :
    moveOp root src dd name ≠ .error (.overwrite p) := by
  intro h
  unfold moveOp at h
  rw [hfree] at h
  simp only [Bool.false_eq_true, if_false] at h
  cases hd : detach root src with
  | none =>
    simp only [hd] at h
    injection h with h1
    simp at h1
  | some pr =>
    obtain ⟨r1, x⟩ := pr
    simp only [hd] at h
    cases ha : attach r1 dd name x with
    | none =>
      simp only [ha] at h
      injection h with h1
      simp at h1
    | some r2 =>
      simp [ha] at h

theorem step1_no_overwrite (cur : Entry) (n : String) (p : List String) :
    step1 cur n ≠ .error (.overwrite p) := by
  intro h
  unfold step1 at h
  cases hg : getPath cur [n] with
  | none =>
    simp only [hg] at h
    cases hmk : mkdirParents cur (destRootOf n) with
    | none =>
      simp only [hmk] at h
      injection h with h1
      simp at h1
    | some cur1 =>
      simp only [hmk] at h
      cases hmv : moveOp cur1 [n] (destRootOf n) (ensure_unique_path cur1 (destRootOf n) n) with
      | error e =>
        simp only [hmv, Except.map] at h
        injection h with h1
        exact moveOp_no_overwrite cur1 [n] (destRootOf n) _ p
          (ensure_unique_path_free cur1 (destRootOf n) n) (by rw [hmv, h1])
      | ok pr =>
        simp [hmv, Except.map] at h
  | some x =>
    cases x with
    | dir cs =>
      simp only [hg] at h
      simp at h
    | file d =>
      simp only [hg] at h
      cases hmk : mkdirParents cur (destRootOf n) with
      | none =>
        simp only [hmk] at h
        injection h with h1
        simp at h1
      | some cur1 =>
        simp only [hmk] at h
        cases hmv : moveOp cur1 [n] (destRootOf n) (ensure_unique_path cur1 (destRootOf n) n) with
        | error e =>
          simp only [hmv, Except.map] at h
          injection h with h1
          exact moveOp_no_overwrite cur1 [n] (destRootOf n) _ p
            (ensure_unique_path_free cur1 (destRootOf n) n) (by rw [hmv, h1])
        | ok pr =>
          simp [hmv, Except.map] at h

theorem passFiles_no_overwrite : ∀ (ns : List String) (cur : Entry) (acc : List MoveRec)
    (p : List String), passFiles cur ns acc ≠ .error (.overwrite p) := by
  intro ns
  induction ns with
  | nil =>
    intro cur acc p h
    simp [passFiles] at h
  | cons n rest ih =>
    intro cur acc p h
    cases hs : step1 cur n with
    | error e =>
      simp only [passFiles, hs] at h
      injection h with h1
      exact step1_no_overwrite cur n p (by rw [hs, h1])
    | ok pr =>
      obtain ⟨c2, rs⟩ := pr
      simp only [passFiles, hs] at h
      exact ih c2 (acc ++ rs) p h

theorem stepLegacyItem_no_overwrite (cur : Entry) (k : String) (dd : List String)
    (i : String) (p : List String) :
    stepLegacyItem cur k dd i ≠ .error (.overwrite p) := by
  intro h
  unfold stepLegacyItem at h
  cases hg : getPath cur [k, i] with
  | none =>
    simp only [hg] at h
    exact moveOp_no_overwrite cur [k, i] dd _ p (ensure_unique_path_free cur dd i) h
  | some x =>
    cases x with
    | dir ds =>
      simp only [hg] at h
      exact moveOp_no_overwrite cur [k, i] dd _ p (ensure_unique_dir_free cur dd i) h
    | file d =>
      simp only [hg] at h
      exact moveOp_no_overwrite cur [k, i] dd _ p (ensure_unique_path_free cur dd i) h

theorem legacyItems_no_overwrite (k : String) (dd : List String) :
    ∀ (js : List String) (cur : Entry) (acc : List MoveRec) (p : List String),
    legacyItems k dd cur js acc ≠ .error (.overwrite p) := by
  intro js
  induction js with
  | nil =>
    intro cur acc p h
    simp [legacyItems] at h
  | cons i rest ih =>
    intro cur acc p h
    cases hs : stepLegacyItem cur k dd i with
    | error e =>
      simp only [legacyItems, hs] at h
      injection h with h1
      exact stepLegacyItem_no_overwrite cur k dd i p (by rw [hs, h1])
    | ok pr =>
      obtain ⟨c2, r⟩ := pr
      simp only [legacyItems, hs] at h
      exact ih c2 (acc ++ [r]) p h

theorem stepLegacy_no_overwrite (cur : Entry) (acc : List MoveRec) (kv : String × String)
    (p : List String) : stepLegacy cur acc kv ≠ .error (.overwrite p) := by
  intro h
  unfold stepLegacy at h
  cases hg : getPath cur [kv.1] with
  | none => simp [hg] at h
  | some x =>
    cases x with
    | file d => simp [hg] at h
    | dir csk =>
      simp only [hg] at h
      cases hmk : mkdirParents cur (splitPath kv.2) with
      | none =>
        simp only [hmk] at h
        injection h with h1
        simp at h1
      | some cur1 =>
        simp only [hmk] at h
        cases hli : legacyItems kv.1 (splitPath kv.2) cur1
            ((childrenAt cur1 [kv.1]).map Prod.fst) acc with
        | error e =>
          simp only [hli] at h
          injection h with h1
          exact legacyItems_no_overwrite kv.1 (splitPath kv.2) _ cur1 acc p (by rw [hli, h1])
        | ok pr =>
          obtain ⟨c2, acc2⟩ := pr
          simp [hli] at h

theorem relocGo_no_overwrite : ∀ (kvs : List (String × String)) (cur : Entry)
    (acc : List MoveRec) (p : List String),
    relocGo cur acc kvs ≠ .error (.overwrite p) := by
  intro kvs
  induction kvs with
  | nil =>
    intro cur acc p h
    simp [relocGo] at h
  | cons kv rest ih =>
    intro cur acc p h
    cases hs : stepLegacy cur acc kv with
    | error e =>
      simp only [relocGo, hs] at h
      injection h with h1
      exact stepLegacy_no_overwrite cur acc kv p (by rw [hs, h1])
    | ok pr =>
      obtain ⟨c2, a2⟩ := pr
      simp only [relocGo, hs] at h
      exact ih c2 a2 p h

theorem organize_no_overwrite (root : Entry) (p : List String) :
    organize_folder root ≠ .error (.overwrite p) := by
  intro h
  unfold organize_folder at h
  cases root with
  | file d =>
    injection h with h1
    simp at h1
  | dir cs =>
    cases hp : passFiles (.dir cs) (cs.map Prod.fst) [] with
    | error e =>
      simp only [hp] at h
      injection h with h1
      exact passFiles_no_overwrite (cs.map Prod.fst) (.dir cs) [] p (by rw [hp, h1])
    | ok pr =>
      obtain ⟨c1, mv1⟩ := pr
      simp only [hp] at h
      exact relocGo_no_overwrite LEGACY_FOLDER_REMAP c1 mv1 p h

end Organizer

namespace Organizer

/-! ### First-match characterization of the classifier -/

theorem findSome?_first {α β : Type} (f : α → Option β) :
    ∀ (pre : List α) (a : α) (post : List α) (b : β),
    (∀ x ∈ pre, f x = none) → f a = some b →
    (pre ++ a :: post).findSome? f = some b := by
  intro pre
  induction pre with
  | nil =>
    intro a post b _ hfa
    rw [List.nil_append, List.findSome?_cons, hfa]
  | cons x rest ih =>
    intro a post b hall hfa
    rw [List.cons_append, List.findSome?_cons, hall x (by simp)]
    exact ih a post b (fun y hy => hall y (by simp [hy])) hfa

theorem findSome?_all_none {α β : Type} (f : α → Option β) :
    ∀ (l : List α), (∀ x ∈ l, f x = none) → l.findSome? f = none := by
  intro l
  induction l with
  | nil => intro _; rfl
  | cons x rest ih =>
    intro h
    rw [List.findSome?_cons, h x (by simp)]
    exact ih (fun y hy => h y (by simp [hy]))

theorem resolve_first (n : String) (pre : List (String × List String))
    (r : String × List String) (post : List (String × List String))
    (hsplit : CATEGORY_MAP = pre ++ r :: post)
    (hmem : strLower (pySuffix n) ∈ r.2)
    (hpre : ∀ r2 ∈ pre, strLower (pySuffix n) ∉ r2.2) :
    resolve_destination n = some r.1 := by
  unfold resolve_destination
  rw [hsplit]
  exact findSome?_first _ pre r post r.1
    (fun x hx => by rw [if_neg (hpre x hx)]) (by rw [if_pos hmem])

theorem resolve_none (n : String)
    (hall : ∀ r ∈ CATEGORY_MAP, strLower (pySuffix n) ∉ r.2) :
    resolve_destination n = none := by
  unfold resolve_destination
  exact findSome?_all_none _ _ (fun x hx => by rw [if_neg (hall x hx)])

theorem destRootOf_some (n : String) (d : String)
    (h : resolve_destination n = some d) : destRootOf n = splitPath d := by
  unfold destRootOf
  rw [h]

theorem destRootOf_other (n : String) (h : resolve_destination n = none) :
    destRootOf n = [OTHER_FOLDER] := by
  unfold destRootOf
  rw [h]

/-! ### Names with an empty extracted extension -/

theorem findIdx?_none_of_not {α : Type} (p : α → Bool) :
    ∀ (l : List α) (i : Nat), (∀ c ∈ l, p c = false) → l.findIdx? p i = none := by
  intro l
  induction l with
  | nil => intro i _; rfl
  | cons c rest ih =>
    intro i h
    rw [List.findIdx?_cons, h c (by simp)]
    simp only [Bool.false_eq_true, if_false]
    exact ih (i + 1) (fun c2 hc2 => h c2 (by simp [hc2]))

theorem findIdx?_append_last {α : Type} (p : α → Bool) :
    ∀ (l : List α) (a : α) (i : Nat), (∀ c ∈ l, p c = false) → p a = true →
    (l ++ [a]).findIdx? p i = some (i + l.length) := by
  intro l
  induction l with
  | nil =>
    intro a i _ hpa
    rw [List.nil_append, List.findIdx?_cons, hpa]
    simp
  | cons c rest ih =>
    intro a i h hpa
    rw [List.cons_append, List.findIdx?_cons, h c (by simp)]
    simp only [Bool.false_eq_true, if_false]
    rw [ih a (i + 1) (fun c2 hc2 => h c2 (by simp [hc2])) hpa]
    simp only [List.length_cons, Option.some.injEq]
    omega

theorem pySuffix_no_dot (n : String) (h : ∀ c ∈ n.data, c ≠ '.') : pySuffix n = "" := by
  have hidx : n.data.reverse.findIdx? (fun c => c = '.') = none := by
    refine findIdx?_none_of_not _ _ _ ?_
    intro c hc
    simp only [decide_eq_false_iff_not]
    exact h c (List.mem_reverse.mp hc)
  unfold pySuffix pySplitExt
  simp only [hidx]

theorem pySuffix_leading_dot (n : String) (rest : List Char)
    (hdata : n.data = '.' :: rest) (h : ∀ c ∈ rest, c ≠ '.') : pySuffix n = "" := by
  have hidx : n.data.reverse.findIdx? (fun c => c = '.') = some rest.length := by
    rw [hdata, List.reverse_cons]
    rw [findIdx?_append_last _ rest.reverse '.' 0
      (fun c hc => by
        simp only [decide_eq_false_iff_not]
        exact h c (List.mem_reverse.mp hc))
      (by decide)]
    simp
  have hlen : n.data.length = rest.length + 1 := by rw [hdata, List.length_cons]
  have hcond : ¬(0 < rest.length ∧ rest.length < n.data.length - 1) := by
    rw [hlen]
    omega
  unfold pySuffix pySplitExt
  simp only [hidx, hcond, if_false]

theorem resolve_none_of_suffix_empty (n : String) (h : pySuffix n = "") :
    resolve_destination n = none := by
  have hall : ∀ r ∈ CATEGORY_MAP, strLower "" ∉ r.2 := by decide
  refine resolve_none n ?_
  intro r hr
  rw [h]
  exact hall r hr

end Organizer

namespace Organizer

/-! ### The two source variants compute the same functions -/

theorem riot_category_eq : Riot.CATEGORY_MAP = CATEGORY_MAP := rfl

theorem riot_legacy_eq : Riot.LEGACY_FOLDER_REMAP = LEGACY_FOLDER_REMAP := rfl

theorem riot_splitPath_eq (s : String) : Riot.splitPath s = splitPath s := rfl

theorem riot_resolve_eq (n : String) :
    Riot.resolve_destination n = resolve_destination n := rfl

theorem riot_candFile_eq (s u c : String) : Riot.candFile s u c = candFile s u c := rfl

theorem riot_candDir_eq (nm c : String) : Riot.candDir nm c = candDir nm c := rfl

theorem riot_findFreeFile_eq (root : Entry) (dd : List String) (s u : String) :
    ∀ (fuel k : Nat),
    Riot.findFreeFile root dd s u fuel k = findFreeFile root dd s u fuel k := by
  intro fuel
  induction fuel with
  | zero => intro k; rfl
  | succ f ih =>
    intro k
    simp only [Riot.findFreeFile, findFreeFile, riot_candFile_eq, ih]

theorem riot_findFreeDir_eq (root : Entry) (dd : List String) (nm : String) :
    ∀ (fuel k : Nat),
    Riot.findFreeDir root dd nm fuel k = findFreeDir root dd nm fuel k := by
  intro fuel
  induction fuel with
  | zero => intro k; rfl
  | succ f ih =>
    intro k
    simp only [Riot.findFreeDir, findFreeDir, riot_candDir_eq, ih]

theorem riot_ensure_path_eq (root : Entry) (dd : List String) (name : String) :
    Riot.ensure_unique_path root dd name = ensure_unique_path root dd name := by
  simp only [Riot.ensure_unique_path, ensure_unique_path, riot_findFreeFile_eq]

theorem riot_ensure_dir_eq (root : Entry) (dd : List String) (name : String) :
    Riot.ensure_unique_dir root dd name = ensure_unique_dir root dd name := by
  simp only [Riot.ensure_unique_dir, ensure_unique_dir, riot_findFreeDir_eq]

theorem riot_destRootOf_eq (n : String) : Riot.destRootOf n = destRootOf n := by
  unfold Riot.destRootOf destRootOf
  rw [riot_resolve_eq]
  cases resolve_destination n with
  | none => rfl
  | some d => rfl

theorem riot_step1_eq (cur : Entry) (n : String) : Riot.step1 cur n = step1 cur n := by
  unfold Riot.step1 step1
  cases hg : getPath cur [n] with
  | none =>
    simp only [hg, riot_destRootOf_eq, riot_ensure_path_eq]
  | some x =>
    cases x with
    | dir cs => simp only [hg]
    | file d => simp only [hg, riot_destRootOf_eq, riot_ensure_path_eq]

theorem riot_passFiles_eq : ∀ (ns : List String) (cur : Entry) (acc : List MoveRec),
    Riot.passFiles cur ns acc = passFiles cur ns acc := by
  intro ns
  induction ns with
  | nil => intro cur acc; rfl
  | cons n rest ih =>
    intro cur acc
    cases hs : step1 cur n with
    | error e =>
      simp only [Riot.passFiles, passFiles, riot_step1_eq, hs]
    | ok pr =>
      obtain ⟨c2, rs⟩ := pr
      simp only [Riot.passFiles, passFiles, riot_step1_eq, hs]
      exact ih c2 (acc ++ rs)

theorem riot_stepLegacyItem_eq (cur : Entry) (k : String) (dd : List String) (i : String) :
    Riot.stepLegacyItem cur k dd i = stepLegacyItem cur k dd i := by
  unfold Riot.stepLegacyItem stepLegacyItem
  cases hg : getPath cur [k, i] with
  | none => simp only [hg, riot_ensure_path_eq]
  | some x =>
    cases x with
    | dir cs => simp only [hg, riot_ensure_dir_eq]
    | file d => simp only [hg, riot_ensure_path_eq]

theorem riot_legacyItems_eq (k : String) (dd : List String) :
    ∀ (js : List String) (cur : Entry) (acc : List MoveRec),
    Riot.legacyItems k dd cur js acc = legacyItems k dd cur js acc := by
  intro js
  induction js with
  | nil => intro cur acc; rfl
  | cons i rest ih =>
    intro cur acc
    cases hs : stepLegacyItem cur k dd i with
    | error e =>
      simp only [Riot.legacyItems, legacyItems, riot_stepLegacyItem_eq, hs]
    | ok pr =>
      obtain ⟨c2, r⟩ := pr
      simp only [Riot.legacyItems, legacyItems, riot_stepLegacyItem_eq, hs]
      exact ih c2 (acc ++ [r])

theorem riot_stepLegacy_eq (cur : Entry) (acc : List MoveRec) (kv : String × String) :
    Riot.stepLegacy cur acc kv = stepLegacy cur acc kv := by
  unfold Riot.stepLegacy stepLegacy
  cases hg : getPath cur [kv.1] with
  | none => simp only [hg]
  | some x =>
    cases x with
    | file d => simp only [hg]
    | dir csk =>
      simp only [hg, riot_splitPath_eq, riot_legacyItems_eq]

theorem riot_relocGo_eq : ∀ (kvs : List (String × String)) (cur : Entry)
    (acc : List MoveRec), Riot.relocGo cur acc kvs = relocGo cur acc kvs := by
  intro kvs
  induction kvs with
  | nil => intro cur acc; rfl
  | cons kv rest ih =>
    intro cur acc
    cases hs : stepLegacy cur acc kv with
    | error e =>
      simp only [Riot.relocGo, relocGo, riot_stepLegacy_eq, hs]
    | ok pr =>
      obtain ⟨c2, a2⟩ := pr
      simp only [Riot.relocGo, relocGo, riot_stepLegacy_eq, hs]
      exact ih c2 a2

theorem riot_relocate_eq (cur : Entry) (acc : List MoveRec) :
    Riot.relocate_legacy_folders cur acc = relocate_legacy_folders cur acc := by
  unfold Riot.relocate_legacy_folders relocate_legacy_folders
  rw [riot_legacy_eq, riot_relocGo_eq]

theorem riot_organize_eq (root : Entry) :
    Riot.organize_folder root = organize_folder root := by
  cases root with
  | file d => rfl
  | dir cs =>
    unfold Riot.organize_folder organize_folder
    simp only [riot_passFiles_eq]
    cases hp : passFiles (.dir cs) (cs.map Prod.fst) [] with
    | error e => simp only [hp]
    | ok pr =>
      obtain ⟨c1, mv⟩ := pr
      simp only [hp]
      exact riot_relocate_eq c1 mv

end Organizer

namespace Organizer

/-! ### The claims -/

/-- Claim C1: for every top-level file of the base folder, when the
lower-cased extension of its name belongs to the extension list of some
category of `CATEGORY_MAP`, a successful `organize_folder` run records a move
of that file into the folder of the first such category in declared order;
when no category's extension list contains it, the run records a move into
the `Other` folder. -/
theorem claim_C1 (cs : List (String × Entry)) (root' : Entry) (mv : List MoveRec)
    (hwf : wfEntry (.dir cs) = true)
    (h : organize_folder (.dir cs) = .ok (root', mv))
    (n : String) (d : Nat) (hl : lookupChild cs n = some (.file d)) :
    (∀ (pre : List (String × List String)) (r : String × List String)
       (post : List (String × List String)),
       CATEGORY_MAP = pre ++ r :: post →
       strLower (pySuffix n) ∈ r.2 →
       (∀ r2 ∈ pre, strLower (pySuffix n) ∉ r2.2) →
       ∃ t, ([n], splitPath r.1 ++ [t]) ∈ mv) ∧
    ((∀ r ∈ CATEGORY_MAP, strLower (pySuffix n) ∉ r.2) →
       ∃ t, ([n], [OTHER_FOLDER, t]) ∈ mv) := by
  obtain ⟨t, ht⟩ := organize_records cs root' mv hwf h n d hl
  constructor
  · intro pre r post hsplit hmem hpre
    have hres := resolve_first n pre r post hsplit hmem hpre
    rw [destRootOf_some n r.1 hres] at ht
    exact ⟨t, ht⟩
  · intro hall
    rw [destRootOf_other n (resolve_none n hall)] at ht
    exact ⟨t, ht⟩

theorem claim_C1_witness :
    ∃ t, ((["a.pdf"] : List String), splitPath "Documents/PDF" ++ [t]) ∈
      [((["a.pdf"] : List String), (["Documents", "PDF", "a.pdf"] : List String))] :=
  (claim_C1 [("a.pdf", .file 0)]
      (.dir [("Documents", .dir [("PDF", .dir [("a.pdf", .file 0)])])])
      [(["a.pdf"], ["Documents", "PDF", "a.pdf"])]
      rfl rfl "a.pdf" 0 rfl).1
    [("Documents/Excel", [".xls", ".xlsx", ".xlsm", ".xlsb", ".xltx", ".csv"]),
     ("Documents/Word", [".doc", ".docx", ".odt", ".rtf"])]
    ("Documents/PDF", [".pdf"])
    [("Documents/Text", [".txt"]),
     ("Media/Images", [".jpg", ".jpeg", ".png", ".gif", ".bmp", ".tiff", ".webp", ".heic"]),
     ("Media/Videos", [".mp4", ".mov", ".avi", ".mkv", ".wmv", ".flv", ".webm", ".m4v"])]
    rfl (by decide) (by decide)

/-- Claim C2: the collision resolvers return the target name unchanged when no
entry exists at the target path; otherwise they return the candidate with the
lowest counter `N ≥ 1` that does not exist — `" (N)"` inserted between stem
and extension for files, appended to the whole name for directories — and in
all cases the returned name does not exist at check time. -/
theorem claim_C2 (root : Entry) (dd : List String) (name : String) :
    (existsPath root (dd ++ [name]) = false →
       ensure_unique_path root dd name = name ∧ ensure_unique_dir root dd name = name) ∧
    (existsPath root (dd ++ [name]) = true →
       ∃ k, 1 ≤ k ∧
         ensure_unique_path root dd name =
           candFile (pyStem name) (pySuffix name) (Nat.repr k) ∧
         existsPath root
           (dd ++ [candFile (pyStem name) (pySuffix name) (Nat.repr k)]) = false ∧
         ∀ j, 1 ≤ j → j < k →
           existsPath root
             (dd ++ [candFile (pyStem name) (pySuffix name) (Nat.repr j)]) = true) ∧
    (existsPath root (dd ++ [name]) = true →
       ∃ k, 1 ≤ k ∧
         ensure_unique_dir root dd name = candDir name (Nat.repr k) ∧
         existsPath root (dd ++ [candDir name (Nat.repr k)]) = false ∧
         ∀ j, 1 ≤ j → j < k →
           existsPath root (dd ++ [candDir name (Nat.repr j)]) = true) ∧
    existsPath root (dd ++ [ensure_unique_path root dd name]) = false ∧
    existsPath root (dd ++ [ensure_unique_dir root dd name]) = false :=
  ⟨fun h => ⟨(ensure_unique_path_spec root dd name).1 h,
      (ensure_unique_dir_spec root dd name).1 h⟩,
    (ensure_unique_path_spec root dd name).2,
    (ensure_unique_dir_spec root dd name).2,
    ensure_unique_path_free root dd name,
    ensure_unique_dir_free root dd name⟩

/-- Claim C3: no move performed by a run ever targets an existing path — an
organize run never returns the overwrite failure, which `moveOp` raises
exactly when its target exists at the moment of the move — and in the
collision scenario the top-level `report.pdf` is moved to
`Documents/PDF/report (1).pdf` while the pre-existing
`Documents/PDF/report.pdf` is untouched. -/
theorem claim_C3 (root : Entry) (p : List String) :
    organize_folder root ≠ .error (.overwrite p) ∧
    organize_folder (.dir [("report.pdf", .file 1),
        ("Documents", .dir [("PDF", .dir [("report.pdf", .file 7)])])]) =
      .ok (.dir [("Documents", .dir [("PDF", .dir [("report.pdf", .file 7),
             ("report (1).pdf", .file 1)])])],
           [(["report.pdf"], ["Documents", "PDF", "report (1).pdf"])]) :=
  ⟨organize_no_overwrite root p, rfl⟩

/-- Claim C4: on a successful run, every immediate child of a legacy top-level
directory named in `LEGACY_FOLDER_REMAP` is moved to a collision-safe target
under the remapped destination and recorded in the MoveLog; concretely, a
top-level `Excel` folder holding `a.xls` and `b.xls` ends with both files
inside `Documents/Excel` and no top-level `Excel` left. -/
theorem claim_C4 (cs : List (String × Entry)) (root' : Entry) (mv : List MoveRec)
    (hwf : wfEntry (.dir cs) = true)
    (h : organize_folder (.dir cs) = .ok (root', mv)) :
    (∀ kv ∈ LEGACY_FOLDER_REMAP, ∀ csk, lookupChild cs kv.1 = some (.dir csk) →
       ∀ i ∈ csk.map Prod.fst, ∃ t X, splitPath kv.2 = ["Documents", X] ∧
         ([kv.1, i], ["Documents", X, t]) ∈ mv) ∧
    organize_folder (.dir [("Excel", .dir [("a.xls", .file 1), ("b.xls", .file 2)])]) =
      .ok (.dir [("Documents", .dir [("Excel",
             .dir [("a.xls", .file 1), ("b.xls", .file 2)])])],
           [(["Excel", "a.xls"], ["Documents", "Excel", "a.xls"]),
            (["Excel", "b.xls"], ["Documents", "Excel", "b.xls"])]) := by
  refine ⟨?_, rfl⟩
  obtain ⟨cs2, c1, mv1, hroot, hp, hr⟩ := organize_ok_inv _ root' mv h
  have hcs : cs2 = cs := by injection hroot with h1; rw [h1]
  rw [hcs] at hp
  obtain ⟨-, hstate⟩ := passFiles_topstate _ _ _ _ _ hp (wfEntry_dir_names cs hwf)
  obtain ⟨-, -, -, hdirse⟩ := passFiles_facts _ _ _ _ _ hp
  have hwfk : ∀ kv ∈ LEGACY_FOLDER_REMAP, ∀ csk, getPath c1 [kv.1] = some (.dir csk) →
      namesUnique (csk.map Prod.fst) = true := by
    intro kv hkv csk hg
    have hkey := legacy_keys kv hkv
    have hD : kv.1 ≠ "Documents" := by rcases hkey with h1 | h1 | h1 | h1 <;> simp [h1]
    have hM : kv.1 ≠ "Media" := by rcases hkey with h1 | h1 | h1 | h1 <;> simp [h1]
    have hO : kv.1 ≠ "Other" := by rcases hkey with h1 | h1 | h1 | h1 <;> simp [h1]
    rcases hstate kv.1 hD hM hO with h1 | h1
    · rw [h1] at hg
      exact wfEntry_dir_names csk (wf_getPath [kv.1] (.dir cs) (.dir csk) hwf hg)
    · rw [h1] at hg
      exact absurd hg (by simp)
  intro kv hkv csk hl i hi
  have hkey := legacy_keys kv hkv
  have hD : kv.1 ≠ "Documents" := by rcases hkey with h1 | h1 | h1 | h1 <;> simp [h1]
  have hM : kv.1 ≠ "Media" := by rcases hkey with h1 | h1 | h1 | h1 <;> simp [h1]
  have hO : kv.1 ≠ "Other" := by rcases hkey with h1 | h1 | h1 | h1 <;> simp [h1]
  have hg1 : getPath c1 [kv.1] = some (.dir csk) := by
    refine hdirse kv.1 csk hD hM hO ?_
    rw [getPath_single]
    exact hl
  obtain ⟨t, X, hspl, hmem⟩ := relocGo_records LEGACY_FOLDER_REMAP c1 root' mv1 mv hr
    legacy_kvOk legacy_pairwise hwfk kv hkv csk hg1 i hi
  exact ⟨t, X, hspl, hmem⟩

theorem claim_C4_witness :
    (∀ kv ∈ LEGACY_FOLDER_REMAP, ∀ csk,
       lookupChild [("Excel", Entry.dir [("a.xls", .file 1), ("b.xls", .file 2)])] kv.1 =
         some (.dir csk) →
       ∀ i ∈ csk.map Prod.fst, ∃ t X, splitPath kv.2 = ["Documents", X] ∧
         ([kv.1, i], ["Documents", X, t]) ∈
           [((["Excel", "a.xls"] : List String),
             (["Documents", "Excel", "a.xls"] : List String)),
            (["Excel", "b.xls"], ["Documents", "Excel", "b.xls"])]) ∧
    organize_folder (.dir [("Excel", .dir [("a.xls", .file 1), ("b.xls", .file 2)])]) =
      .ok (.dir [("Documents", .dir [("Excel",
             .dir [("a.xls", .file 1), ("b.xls", .file 2)])])],
           [(["Excel", "a.xls"], ["Documents", "Excel", "a.xls"]),
            (["Excel", "b.xls"], ["Documents", "Excel", "b.xls"])]) :=
  claim_C4 [("Excel", .dir [("a.xls", .file 1), ("b.xls", .file 2)])]
    (.dir [("Documents", .dir [("Excel", .dir [("a.xls", .file 1), ("b.xls", .file 2)])])])
    [(["Excel", "a.xls"], ["Documents", "Excel", "a.xls"]),
     (["Excel", "b.xls"], ["Documents", "Excel", "b.xls"])]
    rfl rfl

/-- Claim C5: when organize succeeds twice in a row on the same folder, the
second run's MoveLog contains no record whose source path is a destination
path of the first run (no file moved by the first run is moved again), and
neither run returns the overwrite failure. -/
theorem claim_C5 (root root1 root2 : Entry) (mv1 mv2 : List MoveRec)
    (h1 : organize_folder root = .ok (root1, mv1))
    (h2 : organize_folder root1 = .ok (root2, mv2)) :
    (∀ r2 ∈ mv2, ∀ r1 ∈ mv1, r2.1 ≠ r1.2) ∧
    (∀ p, organize_folder root ≠ .error (.overwrite p)) ∧
    (∀ p, organize_folder root1 ≠ .error (.overwrite p)) := by
  refine ⟨?_, fun p => organize_no_overwrite root p,
    fun p => organize_no_overwrite root1 p⟩
  intro r2 hr2 r1 hr1
  have hs2 := organize_shape root1 root2 mv2 h2 r2 hr2
  have hs1 := organize_shape root root1 mv1 h1 r1 hr1
  rcases hs2 with ⟨n, t, hr⟩ | ⟨kv, hkv, i, X, t, hr⟩
  · rcases hs1 with ⟨n1, t1, hr1'⟩ | ⟨kv1, hkv1, i1, X1, t1, hr1'⟩
    · rw [hr, hr1']
      intro he
      have he' : [n] = destRootOf n1 ++ [t1] := he
      have hlen := congrArg List.length he'
      cases hd : destRootOf n1 with
      | nil => exact destRootOf_ne_nil n1 hd
      | cons a b =>
        rw [hd] at hlen
        simp at hlen
    · rw [hr, hr1']
      intro he
      have he' : [n] = ["Documents", X1, t1] := he
      have hlen := congrArg List.length he'
      simp at hlen
  · have hkey := legacy_keys kv hkv
    rcases hs1 with ⟨n1, t1, hr1'⟩ | ⟨kv1, hkv1, i1, X1, t1, hr1'⟩
    · rw [hr, hr1']
      intro he
      have he' : [kv.1, i] = destRootOf n1 ++ [t1] := he
      obtain ⟨tl, hh⟩ := destRootOf_head n1
      rcases hh with hh | hh | hh <;> rw [hh, List.cons_append] at he' <;>
        injection he' with he1 he2
      · rcases hkey with h1 | h1 | h1 | h1 <;> rw [h1] at he1 <;>
          exact absurd he1 (by decide)
      · rcases hkey with h1 | h1 | h1 | h1 <;> rw [h1] at he1 <;>
          exact absurd he1 (by decide)
      · rcases hkey with h1 | h1 | h1 | h1 <;> rw [h1] at he1 <;>
          exact absurd he1 (by decide)
    · rw [hr, hr1']
      intro he
      have he' : [kv.1, i] = ["Documents", X1, t1] := he
      injection he' with he1 he2
      rcases hkey with h1 | h1 | h1 | h1 <;> rw [h1] at he1 <;>
        exact absurd he1 (by decide)

theorem claim_C5_witness :
    (∀ r2 ∈ ([] : List MoveRec),
       ∀ r1 ∈ [((["a.pdf"] : List String), (["Documents", "PDF", "a.pdf"] : List String))],
       r2.1 ≠ r1.2) ∧
    (∀ p, organize_folder (.dir [("a.pdf", .file 0)]) ≠ .error (.overwrite p)) ∧
    (∀ p, organize_folder (.dir [("Documents", .dir [("PDF",
        .dir [("a.pdf", .file 0)])])]) ≠ .error (.overwrite p)) :=
  claim_C5 (.dir [("a.pdf", .file 0)])
    (.dir [("Documents", .dir [("PDF", .dir [("a.pdf", .file 0)])])])
    (.dir [("Documents", .dir [("PDF", .dir [("a.pdf", .file 0)])])])
    [(["a.pdf"], ["Documents", "PDF", "a.pdf"])] [] rfl rfl

/-- Claim C6: a successful run preserves the multiset of file contents — the
engine never deletes a file — and the legacy-folder removal primitive deletes
a directory only when it is empty: on a non-empty directory it returns the
tree unchanged (the failure is swallowed, never surfaced), so the run still
returns its complete MoveLog. -/
theorem claim_C6 (root : Entry) (out : Entry × List MoveRec)
    (h : organize_folder root = .ok out) :
    filesOf out.1 = filesOf root ∧
    (∀ (e : Entry) (p : List String) (c : String × Entry)
       (cs : List (String × Entry)),
       getPath e p = some (.dir (c :: cs)) → rmdirIfEmpty e p = e) :=
  ⟨organize_files root out h,
   fun e p c cs hg => rmdirIfEmpty_keep_nonempty e p c cs hg⟩

theorem claim_C6_witness :
    filesOf (.dir [("Documents", .dir [("Text", .dir [("x.txt", .file 9)])])]) =
      filesOf (.dir [("x.txt", .file 9)]) ∧
    (∀ (e : Entry) (p : List String) (c : String × Entry)
       (cs : List (String × Entry)),
       getPath e p = some (.dir (c :: cs)) → rmdirIfEmpty e p = e) :=
  claim_C6 (.dir [("x.txt", .file 9)])
    ((.dir [("Documents", .dir [("Text", .dir [("x.txt", .file 9)])])]),
     [(["x.txt"], ["Documents", "Text", "x.txt"])]) rfl

/-- Claim C7 (amended): a run on a well-formed tree fails only with
`notADir` (the base is not a directory) or `mkdirBlocked` (creating a
destination folder is blocked by an entry that is not a directory); an
existing, listable base directory does not by itself guarantee that organize
returns a MoveLog, contrary to the original claim. -/
theorem claim_C7 (root : Entry) (e : Err) (hwf : wfEntry root = true)
    (h : organize_folder root = .error e) :
    e = .notADir ∨ ∃ p, e = .mkdirBlocked p :=
  organize_err root e hwf h

/-- Counterexample to claim C7 as stated: a perfectly listable base directory
whose top level holds a file named `Other` makes the run fail with
`mkdirBlocked` instead of returning a MoveLog. -/
theorem claim_C7_counterexample :
    organize_folder (.dir [("Other", .file 0)]) = .error (.mkdirBlocked ["Other"]) := rfl

theorem claim_C7_witness :
    Err.mkdirBlocked ["Other"] = Err.notADir ∨
      ∃ p, Err.mkdirBlocked ["Other"] = Err.mkdirBlocked p :=
  claim_C7 (.dir [("Other", .file 0)]) (.mkdirBlocked ["Other"]) rfl rfl

/-- Claim C8 (amended): top-level directories are never moved and never
recursed into by the first pass, and a top-level directory whose name is
neither a legacy name (`Excel`, `Word`, `PDF`, `Text`) nor a destination root
(`Documents`, `Media`, `Other`) is left untouched by the whole run and occurs
in no MoveLog record, neither as a source nor as a destination prefix. -/
theorem claim_C8 (cs : List (String × Entry)) (root' : Entry) (mv : List MoveRec)
    (h : organize_folder (.dir cs) = .ok (root', mv))
    (d : String) (csd : List (String × Entry))
    (hd : lookupChild cs d = some (.dir csd))
    (hnot : d ∉ (["Excel", "Word", "PDF", "Text",
        "Documents", "Media", "Other"] : List String)) :
    getPath root' [d] = some (.dir csd) ∧
    ∀ r ∈ mv, (∀ rest, r.1 ≠ d :: rest) ∧ (∀ rest, r.2 ≠ d :: rest) := by
  obtain ⟨cs2, c1, mv1, hroot, hp, hr⟩ := organize_ok_inv _ root' mv h
  have hcs : cs2 = cs := by injection hroot with h1; rw [h1]
  rw [hcs] at hp
  simp only [List.mem_cons, List.not_mem_nil, or_false, not_or] at hnot
  obtain ⟨hE, hW, hP, hT, hD, hM, hO⟩ := hnot
  obtain ⟨⟨tail1, ht1, hsh1, hnd1⟩, -, -, hdirse⟩ := passFiles_facts _ _ _ _ _ hp
  have hgd : getPath (.dir cs) [d] = some (.dir csd) := by
    rw [getPath_single]
    exact hd
  have hg1 : getPath c1 [d] = some (.dir csd) := hdirse d csd hD hM hO hgd
  obtain ⟨⟨tail2, ht2, hsh2⟩, -, hfr2⟩ := relocGo_facts _ _ _ _ _ hr legacy_kvOk
  have hq1 : ∀ kv ∈ LEGACY_FOLDER_REMAP, pathDisj [kv.1] [d] = true := by
    intro kv hkv
    rcases legacy_keys kv hkv with h1 | h1 | h1 | h1 <;> rw [h1]
    · exact pathDisj_cons_ne _ _ (fun h2 => hE h2.symm)
    · exact pathDisj_cons_ne _ _ (fun h2 => hW h2.symm)
    · exact pathDisj_cons_ne _ _ (fun h2 => hP h2.symm)
    · exact pathDisj_cons_ne _ _ (fun h2 => hT h2.symm)
  have hq2 : pathDisj ["Documents"] [d] = true :=
    pathDisj_cons_ne _ _ (fun h2 => hD h2.symm)
  constructor
  · rw [hfr2 [d] hq1 hq2]
    exact hg1
  · intro r hrm
    rw [ht2, ht1, List.nil_append] at hrm
    rcases List.mem_append.mp hrm with hr3 | hr3
    · obtain ⟨n, t, -, hrs⟩ := hsh1 r hr3
      have hne : r.1 ≠ [d] := hnd1 d csd hgd r hr3
      subst hrs
      constructor
      · intro rest he
        have he' : [n] = d :: rest := he
        injection he' with he1 he2
        exact hne (by rw [he1])
      · intro rest he
        have he' : destRootOf n ++ [t] = d :: rest := he
        obtain ⟨tl, hh⟩ := destRootOf_head n
        rcases hh with hh | hh | hh <;> rw [hh, List.cons_append] at he' <;>
          injection he' with he1 he2
        · exact hD he1.symm
        · exact hM he1.symm
        · exact hO he1.symm
    · obtain ⟨kv, hkv, i, X, t, hrs⟩ := hsh2 r hr3
      subst hrs
      constructor
      · intro rest he
        have he' : [kv.1, i] = d :: rest := he
        injection he' with he1 he2
        rcases legacy_keys kv hkv with h1 | h1 | h1 | h1 <;> rw [h1] at he1
        · exact hE he1.symm
        · exact hW he1.symm
        · exact hP he1.symm
        · exact hT he1.symm
      · intro rest he
        have he' : ["Documents", X, t] = d :: rest := he
        injection he' with he1 he2
        exact hD he1.symm

theorem claim_C8_witness :
    getPath (.dir [("Projects", .dir [("x", .file 3)])]) ["Projects"] =
      some (.dir [("x", .file 3)]) ∧
    ∀ r ∈ ([] : List MoveRec), (∀ rest, r.1 ≠ "Projects" :: rest) ∧
      (∀ rest, r.2 ≠ "Projects" :: rest) :=
  claim_C8 [("Projects", .dir [("x", .file 3)])]
    (.dir [("Projects", .dir [("x", .file 3)])]) [] rfl "Projects"
    [("x", .file 3)] rfl (by decide)

/-- Counterexample to claim C8 as stated: `Other` is not a legacy name, yet a
run on a base folder holding an empty top-level directory `Other` and a file
`a` moves the file into that directory — the non-legacy directory is changed
and its name appears in the MoveLog. -/
theorem claim_C8_counterexample :
    ("Other" ∉ LEGACY_FOLDER_REMAP.map Prod.fst) ∧
    organize_folder (.dir [("Other", .dir []), ("a", .file 5)]) =
      .ok (.dir [("Other", .dir [("a", .file 5)])], [(["a"], ["Other", "a"])]) ∧
    getPath (.dir [("Other", .dir [("a", .file 5)])]) ["Other"] ≠
      getPath (.dir [("Other", .dir []), ("a", .file 5)]) ["Other"] := by
  refine ⟨by decide, rfl, ?_⟩
  intro h2
  have h3 : (some (Entry.dir [("a", Entry.file 5)]) : Option Entry) =
      some (Entry.dir []) := h2
  injection h3 with h4
  injection h4 with h5
  exact List.noConfusion h5

/-- Claim C9: a top-level file whose name contains no dot, or is a dotfile
with a single leading dot, yields an empty extracted extension; it matches no
category, and a successful run records its move into the `Other` folder. -/
theorem claim_C9 (cs : List (String × Entry)) (root' : Entry) (mv : List MoveRec)
    (hwf : wfEntry (.dir cs) = true)
    (h : organize_folder (.dir cs) = .ok (root', mv))
    (n : String) (d : Nat) (hl : lookupChild cs n = some (.file d))
    (hname : (∀ c ∈ n.data, c ≠ '.') ∨
       (∃ rest, n.data = '.' :: rest ∧ ∀ c ∈ rest, c ≠ '.')) :
    pySuffix n = "" ∧ resolve_destination n = none ∧
    ∃ t, ([n], [OTHER_FOLDER, t]) ∈ mv := by
  have hsuf : pySuffix n = "" := by
    rcases hname with h1 | ⟨rest, hdata, h2⟩
    · exact pySuffix_no_dot n h1
    · exact pySuffix_leading_dot n rest hdata h2
  have hres := resolve_none_of_suffix_empty n hsuf
  obtain ⟨t, ht⟩ := organize_records cs root' mv hwf h n d hl
  rw [destRootOf_other n hres] at ht
  exact ⟨hsuf, hres, t, ht⟩

theorem claim_C9_witness :
    pySuffix "README" = "" ∧ resolve_destination "README" = none ∧
    ∃ t, ((["README"] : List String), [OTHER_FOLDER, t]) ∈
      [((["README"] : List String), (["Other", "README"] : List String))] :=
  claim_C9 [("README", .file 4)]
    (.dir [("Other", .dir [("README", .file 4)])])
    [(["README"], ["Other", "README"])] rfl rfl "README" 4 rfl
    (Or.inl (by decide))

/-- Claim C10: the five core functions of the two source variants are
extensionally equal — on every input (name, tree, path, accumulated MoveLog)
each pair returns the same result, hence both variants produce the same final
tree, the same MoveLog and the same failure on every filesystem state. -/
theorem claim_C10 :
    (∀ n, Riot.resolve_destination n = resolve_destination n) ∧
    (∀ root dd name,
       Riot.ensure_unique_path root dd name = ensure_unique_path root dd name) ∧
    (∀ root dd name,
       Riot.ensure_unique_dir root dd name = ensure_unique_dir root dd name) ∧
    (∀ cur acc,
       Riot.relocate_legacy_folders cur acc = relocate_legacy_folders cur acc) ∧
    (∀ root, Riot.organize_folder root = organize_folder root) :=
  ⟨riot_resolve_eq, riot_ensure_path_eq, riot_ensure_dir_eq,
   riot_relocate_eq, riot_organize_eq⟩

end Organizer
